import Mathlib

/-!
# ISAAC random number generator (`bench/ext/isaac.c`)

A shallow embedding of Bob Jenkins' ISAAC generator as it appears in
`bench/ext/isaac.c`: the context `randctx`, the block generator `isaac`, the
scrambling macro `mix`, the seeding routine `randinit` and the accessor macro
`isaac_rand`.

Conventions of the embedding.

* A `ub4` (`uint32_t`) is a natural number; every C operation that can leave the
  32-bit range is followed by an explicit reduction modulo `2^32` (`ub4`).
* The arrays `randrsl` and `randmem` are lists; the C type fixes their length to
  `RANDSIZ`, which is the predicate `randctx.WF`.
* Pointers into an array are offsets from its first element.  Every array access
  is bounds-checked: an access outside the list makes the computation return
  `none`.  Loops carry a fuel argument and return `none` when it runs out.  The
  theorems show that on well-formed contexts neither ever happens.
-/

namespace Isaac

/-! ## Machine words, checked array accesses, loops -/

/-- Truncation of a natural number to an unsigned 4-byte quantity (`ub4`). -/
def ub4 (x : Nat) : Nat := x % 2 ^ 32

/-- Checked array write `l[i] = v`: fails outside the array. -/
def store (l : List Nat) (i : Nat) (v : Nat) : Option (List Nat) :=
  if i < l.length then some (l.set i v) else none

/-- A `for`/`while` loop: `cond` is the loop test, `body` one pass through the
loop body.  The loop fails when the fuel is exhausted before the test fails. -/
def whileLoop {σ : Type} (cond : σ → Bool) (body : σ → Option σ) : Nat → σ → Option σ
  | 0, _ => none
  | fuel + 1, s => if cond s then (body s).bind (whileLoop cond body fuel) else some s

/-! ## The context -/

/-- The constant `#define RANDSIZL (8)`. -/
def RANDSIZL : Nat := 8

/-- The constant `#define RANDSIZ (1<<RANDSIZL)`. -/
def RANDSIZ : Nat := 1 <<< RANDSIZL

/-- The `struct randctx`: context of the random number generator. -/
structure randctx where
  randcnt : Nat
  randrsl : List Nat
  randmem : List Nat
  randa : Nat
  randb : Nat
  randc : Nat
  deriving DecidableEq

/-- The arrays of a context have `RANDSIZ` entries each, as the C struct
declares them (`ub4 randrsl[RANDSIZ]; ub4 randmem[RANDSIZ];`). -/
def randctx.WF (c : randctx) : Prop :=
  c.randrsl.length = RANDSIZ ∧ c.randmem.length = RANDSIZ

instance (c : randctx) : Decidable c.WF := by
  unfold randctx.WF; exact inferInstance

/-! ## The block generator -/

/-- The register variables of `isaac()` that live across `rngstep`s.  The
pointers `m`, `m2`, `mend` are offsets into `ctx.randmem` (`mm`), the pointer
`r` is an offset into `ctx.randrsl`.  The temporaries `x` and `y` are assigned
in every `rngstep` before they are read and are local to it here. -/
structure isaac_regs where
  a : Nat
  b : Nat
  m : Nat
  m2 : Nat
  r : Nat
  mend : Nat
  ctx : randctx

/-- The macro `#define ind(mm,x)  ((mm)[(x>>2)&(RANDSIZ-1)])`. -/
def ind (mm : List Nat) (x : Nat) : Option Nat :=
  mm[(x >>> 2) &&& (RANDSIZ - 1)]?

/-- The macro `rngstep(mix,a,b,mm,m,m2,r,x)`; `mix` is the macro argument, an
expression in the current value of `a`.
```
x = *m;
a = ((a^(mix)) + *(m2)) & 0xffffffff;
m2++;
*(m++) = y = (ind(mm,x) + a + b) & 0xffffffff;
*(r++) = b = (ind(mm,y>>RANDSIZL) + x) & 0xffffffff;
```
-/
def rngstep (mix : Nat → Nat) (s : isaac_regs) : Option isaac_regs := do
  let x ← s.ctx.randmem[s.m]?
  let v2 ← s.ctx.randmem[s.m2]?
  let a := ub4 ((s.a ^^^ mix s.a) + v2) &&& 0xffffffff
  let m2 := s.m2 + 1
  let t ← ind s.ctx.randmem x
  let y := ub4 (ub4 (t + a) + s.b) &&& 0xffffffff
  let mem ← store s.ctx.randmem s.m y
  let m := s.m + 1
  let t2 ← ind mem (y >>> RANDSIZL)
  let b := ub4 (t2 + x) &&& 0xffffffff
  let rsl ← store s.ctx.randrsl s.r b
  let r := s.r + 1
  pure { s with a := a, b := b, m := m, m2 := m2, r := r,
                ctx := { s.ctx with randmem := mem, randrsl := rsl } }

/-- The body shared by the two loops of `isaac()`: four `rngstep`s with the
mixing expressions `a<<13`, `(a&0xffffffff)>>6`, `a<<2`, `(a&0xffffffff)>>16`. -/
def isaac_body (s : isaac_regs) : Option isaac_regs := do
  let s ← rngstep (fun a => ub4 (a <<< 13)) s
  let s ← rngstep (fun a => (a &&& 0xffffffff) >>> 6) s
  let s ← rngstep (fun a => ub4 (a <<< 2)) s
  rngstep (fun a => (a &&& 0xffffffff) >>> 16) s

/-- The function `isaac(randctx *ctx)`.
```
mm=ctx->randmem; r=ctx->randrsl;
a = ctx->randa; b = (ctx->randb + (++ctx->randc)) & 0xffffffff;
for (m = mm, mend = m2 = m+(RANDSIZ/2); m<mend; ) { four rngsteps }
for (m2 = mm; m2<mend; ) { four rngsteps }
ctx->randb = b; ctx->randa = a;
```
-/
def isaac (ctx : randctx) : Option randctx := do
  let ctx := { ctx with randc := ub4 (ctx.randc + 1) }
  let s : isaac_regs :=
    { a := ctx.randa, b := ub4 (ctx.randb + ctx.randc) &&& 0xffffffff,
      m := 0, m2 := 0 + RANDSIZ / 2, mend := 0 + RANDSIZ / 2, r := 0, ctx := ctx }
  let s ← whileLoop (fun s => decide (s.m < s.mend)) isaac_body RANDSIZ s
  let s := { s with m2 := 0 }
  let s ← whileLoop (fun s => decide (s.m2 < s.mend)) isaac_body RANDSIZ s
  pure { s.ctx with randb := s.b, randa := s.a }

/-! ## Scrambling and seeding -/

/-- The eight locals `a,b,c,d,e,f,g,h` of `randinit()`. -/
structure mixvars where
  a : Nat
  b : Nat
  c : Nat
  d : Nat
  e : Nat
  f : Nat
  g : Nat
  h : Nat
  deriving DecidableEq

/-- The macro `mix(a,b,c,d,e,f,g,h)`.
```
a^=b<<11; d+=a; b+=c;
b^=(c&0xffffffff)>>2;  e+=b; c+=d;
c^=d<<8;  f+=c; d+=e;
d^=(e&0xffffffff)>>16; g+=d; e+=f;
e^=f<<10; h+=e; f+=g;
f^=(g&0xffffffff)>>4;  a+=f; g+=h;
g^=h<<8;  b+=g; h+=a;
h^=(a&0xffffffff)>>9;  c+=h; a+=b;
```
-/
def mix (v : mixvars) : mixvars :=
  let a := v.a; let b := v.b; let c := v.c; let d := v.d
  let e := v.e; let f := v.f; let g := v.g; let h := v.h
  let a := a ^^^ ub4 (b <<< 11); let d := ub4 (d + a); let b := ub4 (b + c)
  let b := b ^^^ ((c &&& 0xffffffff) >>> 2); let e := ub4 (e + b); let c := ub4 (c + d)
  let c := c ^^^ ub4 (d <<< 8); let f := ub4 (f + c); let d := ub4 (d + e)
  let d := d ^^^ ((e &&& 0xffffffff) >>> 16); let g := ub4 (g + d); let e := ub4 (e + f)
  let e := e ^^^ ub4 (f <<< 10); let h := ub4 (h + e); let f := ub4 (f + g)
  let f := f ^^^ ((g &&& 0xffffffff) >>> 4); let a := ub4 (a + f); let g := ub4 (g + h)
  let g := g ^^^ ub4 (h <<< 8); let b := ub4 (b + g); let h := ub4 (h + a)
  let h := h ^^^ ((a &&& 0xffffffff) >>> 9); let c := ub4 (c + h); let a := ub4 (a + b)
  { a := a, b := b, c := c, d := d, e := e, f := f, g := g, h := h }

/-- The locals of `randinit()`: the loop counter `i`, the eight scratch words
and the context that `m = ctx->randmem` and `r = ctx->randrsl` point into. -/
structure init_regs where
  i : Nat
  v : mixvars
  ctx : randctx

/-- The statements
```
m[i  ]=a; m[i+1]=b; m[i+2]=c; m[i+3]=d;
m[i+4]=e; m[i+5]=f; m[i+6]=g; m[i+7]=h;
```
-/
def store8 (mem : List Nat) (i : Nat) (v : mixvars) : Option (List Nat) := do
  let mem ← store mem i v.a
  let mem ← store mem (i + 1) v.b
  let mem ← store mem (i + 2) v.c
  let mem ← store mem (i + 3) v.d
  let mem ← store mem (i + 4) v.e
  let mem ← store mem (i + 5) v.f
  let mem ← store mem (i + 6) v.g
  store mem (i + 7) v.h

/-- The statements (with `p` being `r` in the first pass, `m` in the second)
```
a+=p[i  ]; b+=p[i+1]; c+=p[i+2]; d+=p[i+3];
e+=p[i+4]; f+=p[i+5]; g+=p[i+6]; h+=p[i+7];
```
-/
def add8 (p : List Nat) (i : Nat) (v : mixvars) : Option mixvars := do
  let a := ub4 (v.a + (← p[i]?))
  let b := ub4 (v.b + (← p[i + 1]?))
  let c := ub4 (v.c + (← p[i + 2]?))
  let d := ub4 (v.d + (← p[i + 3]?))
  let e := ub4 (v.e + (← p[i + 4]?))
  let f := ub4 (v.f + (← p[i + 5]?))
  let g := ub4 (v.g + (← p[i + 6]?))
  let h := ub4 (v.h + (← p[i + 7]?))
  pure { a := a, b := b, c := c, d := d, e := e, f := f, g := g, h := h }

/-- Body of `for (i=0; i<4; ++i) { mix(a,b,c,d,e,f,g,h); }`. -/
def scramble_body (s : init_regs) : Option init_regs :=
  some { s with v := mix s.v, i := s.i + 1 }

/-- Body of the first seeded pass: add `r[i..i+7]`, `mix`, store to
`m[i..i+7]`, `i+=8`. -/
def seed_pass1_body (s : init_regs) : Option init_regs := do
  let v ← add8 s.ctx.randrsl s.i s.v
  let v := mix v
  let mem ← store8 s.ctx.randmem s.i v
  pure { i := s.i + 8, v := v, ctx := { s.ctx with randmem := mem } }

/-- Body of the second seeded pass: add `m[i..i+7]`, `mix`, store to
`m[i..i+7]`, `i+=8`. -/
def seed_pass2_body (s : init_regs) : Option init_regs := do
  let v ← add8 s.ctx.randmem s.i s.v
  let v := mix v
  let mem ← store8 s.ctx.randmem s.i v
  pure { i := s.i + 8, v := v, ctx := { s.ctx with randmem := mem } }

/-- Body of the unseeded pass: `mix`, store to `m[i..i+7]`, `i+=8`. -/
def noseed_body (s : init_regs) : Option init_regs := do
  let v := mix s.v
  let mem ← store8 s.ctx.randmem s.i v
  pure { i := s.i + 8, v := v, ctx := { s.ctx with randmem := mem } }

/-- The first part of `randinit(ctx, flag)`, up to but excluding the call
`isaac(ctx)`: the accumulators are zeroed and `randmem` is filled.
```
ctx->randa = ctx->randb = ctx->randc = 0;
m=ctx->randmem; r=ctx->randrsl;
a=b=c=d=e=f=g=h=0x9e3779b9;
for (i=0; i<4; ++i) { mix(a,b,c,d,e,f,g,h); }
if (flag) { first pass over r[]; second pass over m[] }
else { fill in mm[] with messy stuff }
```
-/
def randinit_fill (ctx : randctx) (flag : Int) : Option randctx := do
  let ctx := { ctx with randa := 0, randb := 0, randc := 0 }
  let g := 0x9e3779b9
  let s : init_regs :=
    { i := 0, v := { a := g, b := g, c := g, d := g, e := g, f := g, g := g, h := g },
      ctx := ctx }
  let s ← whileLoop (fun s => decide (s.i < 4)) scramble_body RANDSIZ s
  if flag ≠ 0 then
    let s ← whileLoop (fun s => decide (s.i < RANDSIZ)) seed_pass1_body RANDSIZ { s with i := 0 }
    let s ← whileLoop (fun s => decide (s.i < RANDSIZ)) seed_pass2_body RANDSIZ { s with i := 0 }
    pure s.ctx
  else
    let s ← whileLoop (fun s => decide (s.i < RANDSIZ)) noseed_body RANDSIZ { s with i := 0 }
    pure s.ctx

/-- The function `randinit(randctx *ctx, word flag)`: fill the table, then
```
isaac(ctx);            /* fill in the first set of results */
ctx->randcnt=RANDSIZ;  /* prepare to use the first set of results */
```
-/
def randinit (ctx : randctx) (flag : Int) : Option randctx := do
  let ctx ← randinit_fill ctx flag
  let ctx ← isaac ctx
  pure { ctx with randcnt := RANDSIZ }

/-! ## Retrieving values -/

/-- The macro `isaac_rand(r)`: the returned value and the updated context.
```
(!(r)->randcnt-- ?
  (isaac(r), (r)->randcnt=RANDSIZ-1, (r)->randrsl[(r)->randcnt]) :
  (r)->randrsl[(r)->randcnt])
```
The post-decrement of the `ub4` field `randcnt` wraps around at zero. -/
def isaac_rand (r : randctx) : Option (Nat × randctx) :=
  let old := r.randcnt
  let r := { r with randcnt := ub4 (r.randcnt + (2 ^ 32 - 1)) }
  if old = 0 then do
    let r ← isaac r
    let r := { r with randcnt := RANDSIZ - 1 }
    let v ← r.randrsl[r.randcnt]?
    pure (v, r)
  else do
    let v ← r.randrsl[r.randcnt]?
    pure (v, r)

/-- The context after `n` consecutive evaluations of `isaac_rand`. -/
def isaac_rand_iter : Nat → randctx → Option randctx
  | 0, r => some r
  | n + 1, r => (isaac_rand_iter n r).bind (fun t => (isaac_rand t).map Prod.snd)

/-- The value returned by the `k`-th consecutive evaluation of `isaac_rand`
(`k = 1` is the first one). -/
def isaac_rand_nth (k : Nat) (r : randctx) : Option Nat :=
  (isaac_rand_iter (k - 1) r).bind (fun t => (isaac_rand t).map Prod.fst)

/-- The `n`-th value (`n = 1` for the first) that a caller obtains from
`isaac_rand` after `randinit(ctx, flag)`, as `main` does. -/
def generated (ctx : randctx) (flag : Int) (n : Nat) : Option Nat :=
  (randinit ctx flag).bind (isaac_rand_nth n)

/-! ## The index-arithmetic form of the block generator -/

/-- The shifted copy of `a` that position `i` mixes in: `a<<13`, `a>>6`,
`a<<2`, `a>>16` for `i mod 4 = 0, 1, 2, 3`, on 32 bits. -/
def isaac_idx_shift (i a : Nat) : Nat :=
  match i % 4 with
  | 0 => (a <<< 13) % 2 ^ 32
  | 1 => (a % 2 ^ 32) >>> 6
  | 2 => (a <<< 2) % 2 ^ 32
  | _ => (a % 2 ^ 32) >>> 16

/-- The variables of the index-arithmetic loop. -/
structure idx_state where
  a : Nat
  b : Nat
  mem : List Nat
  rsl : List Nat

/-- One step of the index-arithmetic loop, at position `i`. -/
def isaac_idx_step (i : Nat) (s : idx_state) : idx_state :=
  let x := s.mem.getD i 0
  let a := ((s.a ^^^ isaac_idx_shift i s.a) + s.mem.getD ((i + RANDSIZ / 2) % RANDSIZ) 0) % 2 ^ 32
  let y := (s.mem.getD ((x >>> 2) &&& (RANDSIZ - 1)) 0 + a + s.b) % 2 ^ 32
  let mem := s.mem.set i y
  let b := (mem.getD ((y >>> (RANDSIZL + 2)) &&& (RANDSIZ - 1)) 0 + x) % 2 ^ 32
  { a := a, b := b, mem := mem, rsl := s.rsl.set i b }

/-- The steps for `i = 0, 1, ..., k-1`, in this order. -/
def isaac_idx_run : Nat → idx_state → idx_state
  | 0, s => s
  | k + 1, s => isaac_idx_step k (isaac_idx_run k s)

/-- The index-arithmetic form of `isaac`: set `c = randc+1`, `a = randa`,
`b = randb + c`, run the steps for `i = 0, ..., RANDSIZ-1`, store `randa = a`,
`randb = b`, `randc = c`. -/
def isaac_idx (ctx : randctx) : randctx :=
  let c := (ctx.randc + 1) % 2 ^ 32
  let s := isaac_idx_run RANDSIZ
    { a := ctx.randa, b := (ctx.randb + c) % 2 ^ 32, mem := ctx.randmem, rsl := ctx.randrsl }
  { ctx with randmem := s.mem, randrsl := s.rsl, randa := s.a, randb := s.b, randc := c }

/-! ## Closed forms used in the proofs -/

/-- The registers of `isaac()` when the loop variables are `t`, the pointers
`m`, `r` are at offset `k` and `m2` is at offset `k2`. -/
def isaac_regs.pos (ctx : randctx) (t : idx_state) (k k2 : Nat) : isaac_regs :=
  { a := t.a, b := t.b, m := k, m2 := k2, r := k, mend := 0 + RANDSIZ / 2,
    ctx := { ctx with randmem := t.mem, randrsl := t.rsl } }

/-- The eight scratch words in the order in which they are stored. -/
def mixvars.toList (v : mixvars) : List Nat := [v.a, v.b, v.c, v.d, v.e, v.f, v.g, v.h]

/-- The additions `a+=p[i]; ...; h+=p[i+7]` with unchecked reads. -/
def add8_total (p : List Nat) (i : Nat) (v : mixvars) : mixvars :=
  { a := ub4 (v.a + p.getD i 0), b := ub4 (v.b + p.getD (i + 1) 0),
    c := ub4 (v.c + p.getD (i + 2) 0), d := ub4 (v.d + p.getD (i + 3) 0),
    e := ub4 (v.e + p.getD (i + 4) 0), f := ub4 (v.f + p.getD (i + 5) 0),
    g := ub4 (v.g + p.getD (i + 6) 0), h := ub4 (v.h + p.getD (i + 7) 0) }

/-- The scratch words after `j` groups of a filling pass that starts from `v`;
`addf j` is what the pass adds to the scratch words before group `j` is mixed. -/
def fill_state (addf : Nat → mixvars → mixvars) : Nat → mixvars → mixvars
  | 0, v => v
  | j + 1, v => mix (addf j (fill_state addf j v))

/-- The `8*j` words that the first `j` groups of a filling pass store. -/
def fill_table (addf : Nat → mixvars → mixvars) (v : mixvars) : Nat → List Nat
  | 0 => []
  | j + 1 => fill_table addf v j ++ (fill_state addf (j + 1) v).toList

/-- The scratch words `a=b=c=d=e=f=g=h=0x9e3779b9` (the golden ratio). -/
def golden : mixvars :=
  { a := 0x9e3779b9, b := 0x9e3779b9, c := 0x9e3779b9, d := 0x9e3779b9,
    e := 0x9e3779b9, f := 0x9e3779b9, g := 0x9e3779b9, h := 0x9e3779b9 }

/-- The scratch words after the four initial rounds of `mix`. -/
def scrambled : mixvars := mix (mix (mix (mix golden)))

/-- What the unseeded pass adds: nothing. -/
def noseed_add : Nat → mixvars → mixvars := fun _ v => v

/-- What a seeded pass over the array `p` adds for group `j`: `p[8j..8j+7]`. -/
def seed_add (p : List Nat) : Nat → mixvars → mixvars := fun j v => add8_total p (8 * j) v

/-- The contents of `randmem` when `randinit` calls `isaac`, as a function of
the seed (the initial `randrsl`) and the flag. -/
def randinit_table (seed : List Nat) (flag : Int) : List Nat :=
  if flag ≠ 0 then
    let t1 := fill_table (seed_add seed) scrambled (RANDSIZ / 8)
    let s1 := fill_state (seed_add seed) (RANDSIZ / 8) scrambled
    fill_table (seed_add t1) s1 (RANDSIZ / 8)
  else
    fill_table noseed_add scrambled (RANDSIZ / 8)

/-- The locals of `randinit()` after `j` groups of a filling pass that started
with scratch words `v0` and table `mem0`. -/
def fill_regs (ctx : randctx) (addf : Nat → mixvars → mixvars) (v0 : mixvars)
    (mem0 : List Nat) (j : Nat) : init_regs :=
  { i := 8 * j, v := fill_state addf j v0,
    ctx := { ctx with randmem := fill_table addf v0 j ++ mem0.drop (8 * j) } }

/-- The context on which `randinit` runs `isaac`. -/
def randinit_seeded (ctx : randctx) (flag : Int) : randctx :=
  { ctx with randa := 0, randb := 0, randc := 0, randmem := randinit_table ctx.randrsl flag }

/-! ## Concrete contexts -/

/-- The context that `main` hands to `randinit`: `calloc`ed, hence all zero. -/
def calloc_ctx : randctx :=
  { randcnt := 0, randrsl := List.replicate RANDSIZ 0, randmem := List.replicate RANDSIZ 0,
    randa := 0, randb := 0, randc := 0 }

/-- A context holding a full block whose results are `0, 1, ..., RANDSIZ-1`. -/
def full_ctx : randctx :=
  { randcnt := RANDSIZ, randrsl := List.range RANDSIZ, randmem := List.replicate RANDSIZ 0,
    randa := 1, randb := 2, randc := 3 }

/-- A well-formed context that differs from `calloc_ctx` in every field. -/
def other_ctx : randctx :=
  { randcnt := 5, randrsl := List.range RANDSIZ, randmem := List.replicate RANDSIZ 9,
    randa := 1, randb := 2, randc := 3 }

/-- A context with the seed of `other_ctx` and different other fields. -/
def other_ctx2 : randctx :=
  { randcnt := 77, randrsl := List.range RANDSIZ, randmem := List.range RANDSIZ,
    randa := 4, randb := 5, randc := 6 }

/-! ## The seeded table in the words of its description -/

/-- The assignment `T[8j..8j+7] := S`. -/
def write8 (T : List Nat) (j : Nat) (S : mixvars) : List Nat :=
  T.take (8 * j) ++ S.toList ++ T.drop (8 * j + 8)

/-- The scratch words `S` and the table `T` of the seeding passes. -/
structure seed_ref_state where
  S : mixvars
  T : List Nat

/-- The first `j` groups of the first seeding pass: for each group in order,
`S := mix(S + seed[8j..8j+7])` and `T[8j..8j+7] := S`. -/
def seed_ref_pass1 (seed : List Nat) : Nat → seed_ref_state → seed_ref_state
  | 0, st => st
  | j + 1, st =>
    let st := seed_ref_pass1 seed j st
    let S := mix (add8_total seed (8 * j) st.S)
    { S := S, T := write8 st.T j S }

/-- The first `j` groups of the second seeding pass: for each group in order,
`S := mix(S + T[8j..8j+7])` and `T[8j..8j+7] := S`. -/
def seed_ref_pass2 : Nat → seed_ref_state → seed_ref_state
  | 0, st => st
  | j + 1, st =>
    let st := seed_ref_pass2 j st
    let S := mix (add8_total st.T (8 * j) st.S)
    { S := S, T := write8 st.T j S }

/-- The seeded table: start from `S = mix^4` of eight copies of `0x9e3779b9`,
run the first pass over the seed, then the second pass over the table, keeping
the scratch words in between. -/
def seeded_table_ref (seed mem0 : List Nat) : List Nat :=
  (seed_ref_pass2 (RANDSIZ / 8)
    (seed_ref_pass1 seed (RANDSIZ / 8) { S := scrambled, T := mem0 })).T

/-- The number of evaluations, among the first `n` consecutive evaluations of
`isaac_rand`, that found `randcnt = 0` and therefore called `isaac`. -/
def isaac_rand_refills : Nat → randctx → Option Nat
  | 0, _ => some 0
  | n + 1, r =>
    (isaac_rand_iter n r).bind fun t =>
      (isaac_rand_refills n r).map fun k => k + (if t.randcnt = 0 then 1 else 0)

/-! ## 32-bit words and the inverse of `mix` -/

/-- Every scratch word is a 32-bit word. -/
def mixvars.Words32 (v : mixvars) : Prop :=
  v.a < 2 ^ 32 ∧ v.b < 2 ^ 32 ∧ v.c < 2 ^ 32 ∧ v.d < 2 ^ 32 ∧
    v.e < 2 ^ 32 ∧ v.f < 2 ^ 32 ∧ v.g < 2 ^ 32 ∧ v.h < 2 ^ 32

/-- Every field of the context is a 32-bit word, as the C types say. -/
def randctx.Words32 (c : randctx) : Prop :=
  c.randcnt < 2 ^ 32 ∧ (∀ x ∈ c.randrsl, x < 2 ^ 32) ∧ (∀ x ∈ c.randmem, x < 2 ^ 32) ∧
    c.randa < 2 ^ 32 ∧ c.randb < 2 ^ 32 ∧ c.randc < 2 ^ 32

/-- The loop variables `a`, `b` and the memory are 32-bit words. -/
def idx_state.Words32 (s : idx_state) : Prop :=
  s.a < 2 ^ 32 ∧ s.b < 2 ^ 32 ∧ ∀ x ∈ s.mem, x < 2 ^ 32

/-- Subtraction modulo `2^32`. -/
def usub (x y : Nat) : Nat := ub4 (x + (2 ^ 32 - ub4 y))

/-- The scratch words renamed cyclically: `b` becomes `a`, ..., `a` becomes `h`. -/
def mix_rot (v : mixvars) : mixvars :=
  { a := v.b, b := v.c, c := v.d, d := v.e, e := v.f, f := v.g, g := v.h, h := v.a }

/-- The renaming `mix_rot` undone. -/
def mix_unrot (v : mixvars) : mixvars :=
  { a := v.h, b := v.a, c := v.b, d := v.c, e := v.d, f := v.e, g := v.f, h := v.g }

/-- One line `a ^= sh(b); d += a; b += c;` of `mix`, for a shift `sh`. -/
def mix_line (sh : Nat → Nat) (v : mixvars) : mixvars :=
  let a := v.a ^^^ sh v.b
  { v with a := a, d := ub4 (v.d + a), b := ub4 (v.b + v.c) }

/-- The line `a ^= sh(b); d += a; b += c;` undone: `b -= c; d -= a; a ^= sh(b);`. -/
def mix_line_inv (sh : Nat → Nat) (v : mixvars) : mixvars :=
  let b := usub v.b v.c
  { v with b := b, d := usub v.d v.a, a := v.a ^^^ sh b }

/-- The inverse of `mix`: its eight lines undone, last line first. -/
def mix_inv (v : mixvars) : mixvars :=
  let v := mix_line_inv (fun a => (a &&& 0xffffffff) >>> 9) (mix_unrot v)
  let v := mix_line_inv (fun h => ub4 (h <<< 8)) (mix_unrot v)
  let v := mix_line_inv (fun g => (g &&& 0xffffffff) >>> 4) (mix_unrot v)
  let v := mix_line_inv (fun f => ub4 (f <<< 10)) (mix_unrot v)
  let v := mix_line_inv (fun e => (e &&& 0xffffffff) >>> 16) (mix_unrot v)
  let v := mix_line_inv (fun d => ub4 (d <<< 8)) (mix_unrot v)
  let v := mix_line_inv (fun c => (c &&& 0xffffffff) >>> 2) (mix_unrot v)
  mix_line_inv (fun b => ub4 (b <<< 11)) (mix_unrot v)

/-- The all-zero context with accumulator `randa = 1`. -/
def calloc_ctx_a1 : randctx := { calloc_ctx with randa := 1 }

/-! ## Basic facts -/

theorem RANDSIZ_eq : RANDSIZ = 256 := by decide

theorem RANDSIZL_eq : RANDSIZL = 8 := rfl

theorem ub4_and_mask (x : Nat) : ub4 x &&& 0xffffffff = ub4 x := by
  have h := Nat.and_pow_two_sub_one_eq_mod (x % 2 ^ 32) 32
  simpa [ub4] using h

theorem and_mask (x : Nat) : x &&& 0xffffffff = x % 2 ^ 32 := by
  have h := Nat.and_pow_two_sub_one_eq_mod x 32
  simpa using h

theorem and_RANDSIZ_lt (x : Nat) : x &&& (RANDSIZ - 1) < RANDSIZ := by
  have h := Nat.and_pow_two_sub_one_eq_mod x 8
  have h2 : RANDSIZ - 1 = 2 ^ 8 - 1 := by rw [RANDSIZ_eq]; rfl
  rw [h2, h, RANDSIZ_eq]
  omega

theorem store_eq_some {l : List Nat} {i : Nat} (h : i < l.length) (v : Nat) :
    store l i v = some (l.set i v) := by
  simp [store, h]

theorem getElem?_eq_some_getD {l : List Nat} {i : Nat} (h : i < l.length) :
    l[i]? = some (l.getD i 0) := by
  rw [List.getD_eq_getElem _ _ h, List.getElem?_eq_getElem h]

theorem ind_eq_some {mm : List Nat} (h : mm.length = RANDSIZ) (x : Nat) :
    ind mm x = some (mm.getD ((x >>> 2) &&& (RANDSIZ - 1)) 0) := by
  unfold ind
  exact getElem?_eq_some_getD (by rw [h]; exact and_RANDSIZ_lt _)

/-- A loop whose successive states are `f 0, f 1, ..., f n`, the test holding at
all but the last, returns `f n` as soon as the fuel exceeds `n`. -/
theorem whileLoop_eq_of_steps {σ : Type} (cond : σ → Bool) (body : σ → Option σ) :
    ∀ (n : Nat) (f : Nat → σ) (fuel : Nat), n < fuel →
      (∀ j, j < n → cond (f j) = true ∧ body (f j) = some (f (j + 1))) →
      cond (f n) = false →
      whileLoop cond body fuel (f 0) = some (f n) := by
  intro n
  induction n with
  | zero =>
    intro f fuel hf _ hend
    obtain ⟨fuel, rfl⟩ : ∃ k, fuel = k + 1 := ⟨fuel - 1, by omega⟩
    simp [whileLoop, hend]
  | succ n ih =>
    intro f fuel hf hstep hend
    obtain ⟨fuel, rfl⟩ : ∃ k, fuel = k + 1 := ⟨fuel - 1, by omega⟩
    have h0 := hstep 0 (by omega)
    have := ih (fun j => f (j + 1)) fuel (by omega)
      (fun j hj => hstep (j + 1) (by omega)) hend
    simp only [whileLoop, h0.1, if_true, h0.2, Option.some_bind]
    exact this

/-! ## The block generator computes its index-arithmetic form -/

theorem isaac_idx_step_length (i : Nat) (s : idx_state) :
    (isaac_idx_step i s).mem.length = s.mem.length ∧
      (isaac_idx_step i s).rsl.length = s.rsl.length := by
  simp [isaac_idx_step]

theorem isaac_idx_run_length (k : Nat) (s : idx_state) :
    (isaac_idx_run k s).mem.length = s.mem.length ∧
      (isaac_idx_run k s).rsl.length = s.rsl.length := by
  induction k with
  | zero => simp [isaac_idx_run]
  | succ k ih =>
    have h := isaac_idx_step_length k (isaac_idx_run k s)
    simp only [isaac_idx_run]
    exact ⟨h.1.trans ih.1, h.2.trans ih.2⟩

/-- One `rngstep` at offset `k` is one step of the index-arithmetic loop. -/
theorem rngstep_at (mixf : Nat → Nat) (ctx : randctx) (t : idx_state) (k k2 : Nat)
    (hk : k < RANDSIZ) (hk2 : k2 = (k + RANDSIZ / 2) % RANDSIZ)
    (hmem : t.mem.length = RANDSIZ) (hrsl : t.rsl.length = RANDSIZ)
    (hmix : mixf t.a = isaac_idx_shift k t.a) :
    rngstep mixf (isaac_regs.pos ctx t k k2) =
      some (isaac_regs.pos ctx (isaac_idx_step k t) (k + 1) (k2 + 1)) := by
  have hk2lt : k2 < RANDSIZ := by
    rw [hk2]; exact Nat.mod_lt _ (by rw [RANDSIZ_eq]; omega)
  have e1 : t.mem[k]? = some (t.mem.getD k 0) := getElem?_eq_some_getD (by omega)
  have e2 : t.mem[k2]? = some (t.mem.getD k2 0) := getElem?_eq_some_getD (by omega)
  have s1 : ∀ v, store t.mem k v = some (t.mem.set k v) := fun v => store_eq_some (by omega) v
  have s2 : ∀ v, store t.rsl k v = some (t.rsl.set k v) := fun v => store_eq_some (by omega) v
  have i2 : ∀ v x, ind (t.mem.set k v) x = some ((t.mem.set k v).getD ((x >>> 2) &&& (RANDSIZ - 1)) 0) :=
    fun v x => ind_eq_some (by simp [hmem]) x
  have hy : ∀ T A B : Nat, ub4 (ub4 (T + A) + B) = (T + A + B) % 2 ^ 32 := by
    intro T A B; simp only [ub4]; omega
  simp only [rngstep, isaac_regs.pos, e1, e2, Option.bind_eq_bind, Option.some_bind,
    ind_eq_some hmem, ub4_and_mask, hmix, s1, s2, i2, Option.pure_def, hy]
  have hmask : ∀ x : Nat, x % 2 ^ 32 &&& 4294967295 = x % 2 ^ 32 := fun x => ub4_and_mask x
  simp only [isaac_idx_step, ub4, hk2, RANDSIZL_eq, Nat.shiftRight_add, hmask]

theorem isaac_idx_shift_mod (k a : Nat) :
    (k % 4 = 0 → isaac_idx_shift k a = ub4 (a <<< 13)) ∧
    (k % 4 = 1 → isaac_idx_shift k a = (a &&& 0xffffffff) >>> 6) ∧
    (k % 4 = 2 → isaac_idx_shift k a = ub4 (a <<< 2)) ∧
    (k % 4 = 3 → isaac_idx_shift k a = (a &&& 0xffffffff) >>> 16) := by
  refine ⟨?_, ?_, ?_, ?_⟩ <;> intro h <;> simp [isaac_idx_shift, h, ub4, and_mask]

/-- One pass through the loop body is four steps of the index-arithmetic loop. -/
theorem isaac_body_at (ctx : randctx) (s0 : idx_state) (k k2 : Nat)
    (hk4 : k % 4 = 0) (hk : k + 4 ≤ RANDSIZ)
    (hk2 : k2 = (k + RANDSIZ / 2) % RANDSIZ)
    (hmem : s0.mem.length = RANDSIZ) (hrsl : s0.rsl.length = RANDSIZ) :
    isaac_body (isaac_regs.pos ctx (isaac_idx_run k s0) k k2) =
      some (isaac_regs.pos ctx (isaac_idx_run (k + 4) s0) (k + 4) (k2 + 4)) := by
  rw [RANDSIZ_eq] at hk hk2
  have hl : ∀ j, (isaac_idx_run j s0).mem.length = RANDSIZ ∧
      (isaac_idx_run j s0).rsl.length = RANDSIZ := fun j =>
    ⟨(isaac_idx_run_length j s0).1.trans hmem, (isaac_idx_run_length j s0).2.trans hrsl⟩
  have r0 := rngstep_at (fun a => ub4 (a <<< 13)) ctx (isaac_idx_run k s0) k k2
    (by rw [RANDSIZ_eq]; omega) (by rw [RANDSIZ_eq]; exact hk2) (hl k).1 (hl k).2
    ((isaac_idx_shift_mod k _).1 hk4).symm
  have r1 := rngstep_at (fun a => (a &&& 0xffffffff) >>> 6) ctx (isaac_idx_run (k + 1) s0)
    (k + 1) (k2 + 1) (by rw [RANDSIZ_eq]; omega) (by rw [RANDSIZ_eq]; omega) (hl _).1 (hl _).2
    ((isaac_idx_shift_mod (k + 1) _).2.1 (by omega)).symm
  have r2 := rngstep_at (fun a => ub4 (a <<< 2)) ctx (isaac_idx_run (k + 2) s0)
    (k + 2) (k2 + 2) (by rw [RANDSIZ_eq]; omega) (by rw [RANDSIZ_eq]; omega) (hl _).1 (hl _).2
    ((isaac_idx_shift_mod (k + 2) _).2.2.1 (by omega)).symm
  have r3 := rngstep_at (fun a => (a &&& 0xffffffff) >>> 16) ctx (isaac_idx_run (k + 3) s0)
    (k + 3) (k2 + 3) (by rw [RANDSIZ_eq]; omega) (by rw [RANDSIZ_eq]; omega) (hl _).1 (hl _).2
    ((isaac_idx_shift_mod (k + 3) _).2.2.2 (by omega)).symm
  simp only [isaac_idx_run] at r0 r1 r2 r3 ⊢
  simp only [isaac_body, Option.bind_eq_bind]
  rw [r0, Option.some_bind, r1, Option.some_bind, r2, Option.some_bind, r3]

/-- The first loop of `isaac()` performs the steps `0 .. RANDSIZ/2 - 1`. -/
theorem isaac_loop1 (ctx : randctx) (s0 : idx_state)
    (hmem : s0.mem.length = RANDSIZ) (hrsl : s0.rsl.length = RANDSIZ) :
    whileLoop (fun s => decide (s.m < s.mend)) isaac_body RANDSIZ
        (isaac_regs.pos ctx s0 0 (0 + RANDSIZ / 2)) =
      some (isaac_regs.pos ctx (isaac_idx_run (RANDSIZ / 2) s0) (RANDSIZ / 2) RANDSIZ) := by
  have hN := RANDSIZ_eq
  have h := whileLoop_eq_of_steps (fun s : isaac_regs => decide (s.m < s.mend)) isaac_body
    (RANDSIZ / 8)
    (fun j => isaac_regs.pos ctx (isaac_idx_run (4 * j) s0) (4 * j) (RANDSIZ / 2 + 4 * j))
    RANDSIZ (by omega)
    (fun j hj => by
      refine ⟨by simp [isaac_regs.pos]; omega, ?_⟩
      have := isaac_body_at ctx s0 (4 * j) (RANDSIZ / 2 + 4 * j) (by omega) (by omega)
        (by rw [RANDSIZ_eq]; omega) hmem hrsl
      rw [this]
      rfl)
    (by simp [isaac_regs.pos]; omega)
  have e1 : 4 * (RANDSIZ / 8) = RANDSIZ / 2 := by omega
  have e2 : RANDSIZ / 2 + RANDSIZ / 2 = RANDSIZ := by omega
  simp only [Nat.mul_zero, Nat.add_zero, isaac_idx_run, e1, e2] at h
  simpa using h

/-- The second loop of `isaac()` performs the steps `RANDSIZ/2 .. RANDSIZ - 1`. -/
theorem isaac_loop2 (ctx : randctx) (s0 : idx_state)
    (hmem : s0.mem.length = RANDSIZ) (hrsl : s0.rsl.length = RANDSIZ) :
    whileLoop (fun s => decide (s.m2 < s.mend)) isaac_body RANDSIZ
        (isaac_regs.pos ctx (isaac_idx_run (RANDSIZ / 2) s0) (RANDSIZ / 2) 0) =
      some (isaac_regs.pos ctx (isaac_idx_run RANDSIZ s0) RANDSIZ (RANDSIZ / 2)) := by
  have hN := RANDSIZ_eq
  have h := whileLoop_eq_of_steps (fun s : isaac_regs => decide (s.m2 < s.mend)) isaac_body
    (RANDSIZ / 8)
    (fun j => isaac_regs.pos ctx (isaac_idx_run (RANDSIZ / 2 + 4 * j) s0)
      (RANDSIZ / 2 + 4 * j) (4 * j))
    RANDSIZ (by omega)
    (fun j hj => by
      refine ⟨by simp [isaac_regs.pos]; omega, ?_⟩
      have := isaac_body_at ctx s0 (RANDSIZ / 2 + 4 * j) (4 * j) (by omega) (by omega)
        (by rw [RANDSIZ_eq]; omega) hmem hrsl
      rw [this]
      rfl)
    (by simp [isaac_regs.pos]; omega)
  have e1 : 4 * (RANDSIZ / 8) = RANDSIZ / 2 := by omega
  have e2 : RANDSIZ / 2 + RANDSIZ / 2 = RANDSIZ := by omega
  simp only [Nat.mul_zero, Nat.add_zero, e1, e2] at h
  exact h

/-- On a well-formed context `isaac` returns, and what it returns is the
index-arithmetic form. -/
theorem isaac_eq_idx (ctx : randctx) (h : ctx.WF) : isaac ctx = some (isaac_idx ctx) := by
  obtain ⟨hrsl, hmem⟩ := h
  have l1 := isaac_loop1 { ctx with randc := ub4 (ctx.randc + 1) }
    ⟨ctx.randa, ub4 (ctx.randb + ub4 (ctx.randc + 1)), ctx.randmem, ctx.randrsl⟩ hmem hrsl
  have l2 := isaac_loop2 { ctx with randc := ub4 (ctx.randc + 1) }
    ⟨ctx.randa, ub4 (ctx.randb + ub4 (ctx.randc + 1)), ctx.randmem, ctx.randrsl⟩ hmem hrsl
  simp only [isaac_regs.pos] at l1 l2
  simp only [isaac, Option.bind_eq_bind, ub4_and_mask]
  rw [l1, Option.some_bind, l2, Option.some_bind]
  simp [isaac_idx, ub4]

/-! ## The table that seeding fills in -/

theorem fill_table_length (addf : Nat → mixvars → mixvars) (v : mixvars) (j : Nat) :
    (fill_table addf v j).length = 8 * j := by
  induction j with
  | zero => rfl
  | succ j ih => simp [fill_table, ih, mixvars.toList]; omega

theorem randinit_table_length (seed : List Nat) (flag : Int) :
    (randinit_table seed flag).length = RANDSIZ := by
  unfold randinit_table
  split <;> simp [fill_table_length, RANDSIZ_eq]

theorem exists_eq_cons8 (l : List Nat) (h : 8 ≤ l.length) :
    ∃ x0 x1 x2 x3 x4 x5 x6 x7 tl, l = x0 :: x1 :: x2 :: x3 :: x4 :: x5 :: x6 :: x7 :: tl := by
  match l, h with
  | x0 :: x1 :: x2 :: x3 :: x4 :: x5 :: x6 :: x7 :: tl, _ =>
    exact ⟨x0, x1, x2, x3, x4, x5, x6, x7, tl, rfl⟩

/-- Eight stores at offset `i` replace the eight words that follow the first
`i` words. -/
theorem store8_append (pre rest : List Nat) (i : Nat) (v : mixvars)
    (hi : i = pre.length) (h8 : 8 ≤ rest.length) :
    store8 (pre ++ rest) i v = some (pre ++ v.toList ++ rest.drop 8) := by
  obtain ⟨x0, x1, x2, x3, x4, x5, x6, x7, tl, rfl⟩ := exists_eq_cons8 rest h8
  subst hi
  simp [store8, store, List.set_append, mixvars.toList]

theorem getElem?_append_drop (u t : List Nat) (n k : Nat) (hu : u.length = n)
    (hk : n + k < t.length) : (u ++ t.drop n)[n + k]? = some (t.getD (n + k) 0) := by
  rw [List.getElem?_append_right (by omega), hu, Nat.add_sub_cancel_left, List.getElem?_drop]
  exact getElem?_eq_some_getD hk

theorem add8_eq_some (p : List Nat) (i : Nat) (v : mixvars) (h : i + 8 ≤ p.length) :
    add8 p i v = some (add8_total p i v) := by
  have e : ∀ k, k < 8 → p[i + k]? = some (p.getD (i + k) 0) := fun k hk =>
    getElem?_eq_some_getD (by omega)
  have e0 := e 0 (by omega)
  simp only [Nat.add_zero] at e0
  simp only [add8, add8_total, e0, e 1 (by omega), e 2 (by omega), e 3 (by omega),
    e 4 (by omega), e 5 (by omega), e 6 (by omega), e 7 (by omega), Option.bind_eq_bind,
    Option.some_bind, Option.pure_def]

/-- Reading the group at offset `n` of an array whose first `n` words have been
replaced reads the original words. -/
theorem add8_append_drop (u t : List Nat) (n : Nat) (v : mixvars) (hu : u.length = n)
    (h : n + 8 ≤ t.length) : add8 (u ++ t.drop n) n v = some (add8_total t n v) := by
  have e : ∀ k, k < 8 → (u ++ t.drop n)[n + k]? = some (t.getD (n + k) 0) := fun k hk =>
    getElem?_append_drop u t n k hu (by omega)
  have e0 := e 0 (by omega)
  simp only [Nat.add_zero] at e0
  simp only [add8, add8_total, e0, e 1 (by omega), e 2 (by omega), e 3 (by omega),
    e 4 (by omega), e 5 (by omega), e 6 (by omega), e 7 (by omega), Option.bind_eq_bind,
    Option.some_bind, Option.pure_def]

theorem store8_fill (addf : Nat → mixvars → mixvars) (v0 : mixvars) (mem0 : List Nat)
    (j : Nat) (v : mixvars) (hj : 8 * j + 8 ≤ mem0.length) :
    store8 (fill_table addf v0 j ++ mem0.drop (8 * j)) (8 * j) v =
      some (fill_table addf v0 j ++ v.toList ++ mem0.drop (8 * (j + 1))) := by
  rw [store8_append _ _ _ _ (fill_table_length addf v0 j).symm (by simp; omega)]
  simp [List.drop_drop, Nat.mul_add, Nat.add_comm]

/-- A filling pass runs `RANDSIZ/8` times through its body. -/
theorem fill_loop (body : init_regs → Option init_regs) (ctx : randctx)
    (addf : Nat → mixvars → mixvars) (v0 : mixvars) (mem0 : List Nat)
    (hbody : ∀ j, j < RANDSIZ / 8 →
      body (fill_regs ctx addf v0 mem0 j) = some (fill_regs ctx addf v0 mem0 (j + 1))) :
    whileLoop (fun s => decide (s.i < RANDSIZ)) body RANDSIZ (fill_regs ctx addf v0 mem0 0) =
      some (fill_regs ctx addf v0 mem0 (RANDSIZ / 8)) := by
  have hN := RANDSIZ_eq
  exact whileLoop_eq_of_steps (fun s : init_regs => decide (s.i < RANDSIZ)) body
    (RANDSIZ / 8) (fun j => fill_regs ctx addf v0 mem0 j) RANDSIZ (by omega)
    (fun j hj => ⟨by simp [fill_regs]; omega, hbody j hj⟩)
    (by simp [fill_regs]; omega)

theorem noseed_body_fill (ctx : randctx) (v0 : mixvars) (mem0 : List Nat)
    (hmem : mem0.length = RANDSIZ) (j : Nat) (hj : j < RANDSIZ / 8) :
    noseed_body (fill_regs ctx noseed_add v0 mem0 j) =
      some (fill_regs ctx noseed_add v0 mem0 (j + 1)) := by
  have hN := RANDSIZ_eq
  simp only [noseed_body, fill_regs, Option.bind_eq_bind]
  rw [store8_fill _ _ _ _ _ (by omega)]
  simp [fill_table, fill_state, noseed_add, Nat.mul_add]

theorem seed_pass1_body_fill (ctx : randctx) (v0 : mixvars) (mem0 : List Nat)
    (hmem : mem0.length = RANDSIZ) (hrsl : ctx.randrsl.length = RANDSIZ)
    (j : Nat) (hj : j < RANDSIZ / 8) :
    seed_pass1_body (fill_regs ctx (seed_add ctx.randrsl) v0 mem0 j) =
      some (fill_regs ctx (seed_add ctx.randrsl) v0 mem0 (j + 1)) := by
  have hN := RANDSIZ_eq
  simp only [seed_pass1_body, fill_regs, Option.bind_eq_bind]
  rw [add8_eq_some _ _ _ (by omega), Option.some_bind, store8_fill _ _ _ _ _ (by omega)]
  simp [fill_table, fill_state, seed_add, Nat.mul_add]

theorem seed_pass2_body_fill (ctx : randctx) (v0 : mixvars) (mem0 : List Nat)
    (hmem : mem0.length = RANDSIZ) (j : Nat) (hj : j < RANDSIZ / 8) :
    seed_pass2_body (fill_regs ctx (seed_add mem0) v0 mem0 j) =
      some (fill_regs ctx (seed_add mem0) v0 mem0 (j + 1)) := by
  have hN := RANDSIZ_eq
  simp only [seed_pass2_body, fill_regs, Option.bind_eq_bind]
  rw [add8_append_drop _ _ _ _ (fill_table_length _ _ _) (by omega), Option.some_bind,
    store8_fill _ _ _ _ _ (by omega)]
  simp [fill_table, fill_state, seed_add, Nat.mul_add]

theorem scramble_loop (ctx : randctx) :
    whileLoop (fun s => decide (s.i < 4)) scramble_body RANDSIZ
        { i := 0, v := golden, ctx := ctx } =
      some { i := 4, v := scrambled, ctx := ctx } := by
  have h := whileLoop_eq_of_steps (fun s : init_regs => decide (s.i < 4)) scramble_body 4
    (fun j => { i := j, v := mix^[j] golden, ctx := ctx }) RANDSIZ (by rw [RANDSIZ_eq]; omega)
    (fun j hj => ⟨by simpa using hj, by
      simp only [scramble_body, Function.iterate_succ_apply']⟩)
    (by simp)
  exact h

theorem drop_RANDSIZ (l : List Nat) (h : l.length = RANDSIZ) :
    l.drop (8 * (RANDSIZ / 8)) = [] := by
  apply List.drop_of_length_le
  rw [h, RANDSIZ_eq]

theorem fill_regs_zero (ctx : randctx) (addf : Nat → mixvars → mixvars) (v0 : mixvars) :
    fill_regs ctx addf v0 ctx.randmem 0 = { i := 0, v := v0, ctx := ctx } := by
  simp [fill_regs, fill_state, fill_table]

/-- On a well-formed context the first part of `randinit` returns: it zeroes the
accumulators and replaces `randmem` by `randinit_table`. -/
theorem randinit_fill_eq (ctx : randctx) (flag : Int) (h : ctx.WF) :
    randinit_fill ctx flag =
      some { ctx with randa := 0, randb := 0, randc := 0,
                      randmem := randinit_table ctx.randrsl flag } := by
  obtain ⟨hrsl, hmem⟩ := h
  have hs := scramble_loop { ctx with randa := 0, randb := 0, randc := 0 }
  simp only [randinit_fill, Option.bind_eq_bind]
  have hg : (⟨0x9e3779b9, 0x9e3779b9, 0x9e3779b9, 0x9e3779b9, 0x9e3779b9, 0x9e3779b9,
    0x9e3779b9, 0x9e3779b9⟩ : mixvars) = golden := rfl
  rw [hg, hs, Option.some_bind]
  by_cases hf : flag ≠ 0
  · simp only [hf, if_true, not_false_eq_true]
    have p1 := fill_loop seed_pass1_body { ctx with randa := 0, randb := 0, randc := 0 }
      (seed_add ctx.randrsl) scrambled ctx.randmem
      (fun j hj => seed_pass1_body_fill { ctx with randa := 0, randb := 0, randc := 0 }
        scrambled ctx.randmem hmem hrsl j hj)
    rw [fill_regs_zero { ctx with randa := 0, randb := 0, randc := 0 }] at p1
    rw [p1, Option.some_bind]
    have p2 := fill_loop seed_pass2_body
      { ctx with randa := 0, randb := 0, randc := 0,
                 randmem := fill_table (seed_add ctx.randrsl) scrambled (RANDSIZ / 8) }
      (seed_add (fill_table (seed_add ctx.randrsl) scrambled (RANDSIZ / 8)))
      (fill_state (seed_add ctx.randrsl) (RANDSIZ / 8) scrambled)
      (fill_table (seed_add ctx.randrsl) scrambled (RANDSIZ / 8))
      (fun j hj => seed_pass2_body_fill _ _ _
        (by rw [fill_table_length, RANDSIZ_eq]) j hj)
    rw [fill_regs_zero] at p2
    simp only [fill_regs, drop_RANDSIZ _ hmem, List.append_nil] at p2 ⊢
    rw [p2]
    simp [randinit_table, hf, drop_RANDSIZ, fill_table_length, RANDSIZ_eq]
  · simp only [hf, if_false]
    have p := fill_loop noseed_body { ctx with randa := 0, randb := 0, randc := 0 }
      noseed_add scrambled ctx.randmem (fun j hj => noseed_body_fill { ctx with randa := 0, randb := 0, randc := 0 }
        scrambled ctx.randmem hmem j hj)
    rw [fill_regs_zero { ctx with randa := 0, randb := 0, randc := 0 }] at p
    rw [p]
    simp [fill_regs, randinit_table, hf, drop_RANDSIZ _ hmem]

/-! ## Properties of a block generation -/

theorem isaac_idx_randrsl_length (c : randctx) :
    (isaac_idx c).randrsl.length = c.randrsl.length := by
  simp only [isaac_idx]
  exact (isaac_idx_run_length RANDSIZ _).2

theorem isaac_idx_randmem_length (c : randctx) :
    (isaac_idx c).randmem.length = c.randmem.length := by
  simp only [isaac_idx]
  exact (isaac_idx_run_length RANDSIZ _).1

theorem isaac_idx_WF (c : randctx) (h : c.WF) : (isaac_idx c).WF :=
  ⟨(isaac_idx_randrsl_length c).trans h.1, (isaac_idx_randmem_length c).trans h.2⟩

theorem randctx.WF_set_randcnt (c : randctx) (n : Nat) (h : c.WF) :
    ({ c with randcnt := n } : randctx).WF := ⟨h.1, h.2⟩

theorem isaac_idx_randcnt (c : randctx) : (isaac_idx c).randcnt = c.randcnt := by
  simp only [isaac_idx]

theorem isaac_idx_randc (c : randctx) : (isaac_idx c).randc = (c.randc + 1) % 2 ^ 32 := by
  simp only [isaac_idx]

/-- The loop variables `a`, `b`, `mem` do not depend on the prior contents of
the results array, and after `k` steps neither do the first `k` results. -/
theorem isaac_idx_run_rsl (k : Nat) (a b : Nat) (mem r1 r2 : List Nat)
    (hlen : r1.length = r2.length) :
    (isaac_idx_run k ⟨a, b, mem, r1⟩).a = (isaac_idx_run k ⟨a, b, mem, r2⟩).a ∧
    (isaac_idx_run k ⟨a, b, mem, r1⟩).b = (isaac_idx_run k ⟨a, b, mem, r2⟩).b ∧
    (isaac_idx_run k ⟨a, b, mem, r1⟩).mem = (isaac_idx_run k ⟨a, b, mem, r2⟩).mem ∧
    ∀ i, i < k → (isaac_idx_run k ⟨a, b, mem, r1⟩).rsl[i]? =
      (isaac_idx_run k ⟨a, b, mem, r2⟩).rsl[i]? := by
  induction k with
  | zero => simp [isaac_idx_run]
  | succ k ih =>
    obtain ⟨ha, hb, hm, hr⟩ := ih
    have hl : (isaac_idx_run k ⟨a, b, mem, r1⟩).rsl.length =
        (isaac_idx_run k ⟨a, b, mem, r2⟩).rsl.length := by
      rw [(isaac_idx_run_length k _).2, (isaac_idx_run_length k _).2]; exact hlen
    simp only [isaac_idx_run, isaac_idx_step, ha, hb, hm, true_and]
    intro i hi
    rw [List.getElem?_set, List.getElem?_set, hl]
    by_cases hik : k = i
    · simp [hik]
    · simp only [hik, if_false]
      exact hr i (by omega)

/-- The block that `isaac` generates depends on `randmem`, `randa`, `randb` and
`randc` only: every slot of `randrsl` is overwritten. -/
theorem isaac_idx_congr (c1 c2 : randctx) (h1 : c1.WF) (h2 : c2.WF)
    (hcnt : c1.randcnt = c2.randcnt) (hmem : c1.randmem = c2.randmem)
    (ha : c1.randa = c2.randa) (hb : c1.randb = c2.randb) (hc : c1.randc = c2.randc) :
    isaac_idx c1 = isaac_idx c2 := by
  have hlen : c1.randrsl.length = c2.randrsl.length := h1.1.trans h2.1.symm
  obtain ⟨ea, eb, em, er⟩ := isaac_idx_run_rsl RANDSIZ c1.randa
    ((c1.randb + (c1.randc + 1) % 2 ^ 32) % 2 ^ 32) c1.randmem c1.randrsl c2.randrsl hlen
  have erl : (isaac_idx_run RANDSIZ ⟨c1.randa, (c1.randb + (c1.randc + 1) % 2 ^ 32) % 2 ^ 32,
      c1.randmem, c1.randrsl⟩).rsl = (isaac_idx_run RANDSIZ ⟨c1.randa,
      (c1.randb + (c1.randc + 1) % 2 ^ 32) % 2 ^ 32, c1.randmem, c2.randrsl⟩).rsl := by
    apply List.ext_getElem?
    intro n
    by_cases hn : n < RANDSIZ
    · exact er n hn
    · rw [List.getElem?_eq_none (by rw [(isaac_idx_run_length RANDSIZ _).2]; simp only [h1.1]; omega),
        List.getElem?_eq_none (by rw [(isaac_idx_run_length RANDSIZ _).2]; simp only [h2.1]; omega)]
  simp only [isaac_idx, ea, eb, em, erl, hcnt]
  simp only [← hmem, ← ha, ← hb, ← hc]

theorem isaac_idx_set_randcnt (c : randctx) (n : Nat) :
    isaac_idx { c with randcnt := n } = { isaac_idx c with randcnt := n } := by
  simp only [isaac_idx]

/-! ## Seeding and retrieval on well-formed contexts -/

theorem randinit_seeded_WF (ctx : randctx) (flag : Int) (h : ctx.WF) :
    (randinit_seeded ctx flag).WF :=
  ⟨h.1, randinit_table_length _ _⟩

theorem randinit_eq (ctx : randctx) (flag : Int) (h : ctx.WF) :
    randinit ctx flag =
      some { isaac_idx (randinit_seeded ctx flag) with randcnt := RANDSIZ } := by
  have hf := randinit_fill_eq ctx flag h
  have hi := isaac_eq_idx _ (randinit_seeded_WF ctx flag h)
  simp only [randinit_seeded] at hi
  simp only [randinit, Option.bind_eq_bind, hf, Option.some_bind, hi]
  rfl

theorem randinit_WF (ctx : randctx) (flag : Int) (h : ctx.WF) :
    ({ isaac_idx (randinit_seeded ctx flag) with randcnt := RANDSIZ } : randctx).WF :=
  randctx.WF_set_randcnt _ _ (isaac_idx_WF _ (randinit_seeded_WF ctx flag h))

/-- Two well-formed contexts for which `randinit` fills in the same table are
initialised to the same context. -/
theorem randinit_congr (c1 c2 : randctx) (flag : Int) (h1 : c1.WF) (h2 : c2.WF)
    (ht : randinit_table c1.randrsl flag = randinit_table c2.randrsl flag) :
    randinit c1 flag = randinit c2 flag := by
  rw [randinit_eq c1 flag h1, randinit_eq c2 flag h2, ← isaac_idx_set_randcnt,
    ← isaac_idx_set_randcnt]
  exact congrArg some (isaac_idx_congr
    { randinit_seeded c1 flag with randcnt := RANDSIZ }
    { randinit_seeded c2 flag with randcnt := RANDSIZ }
    (randctx.WF_set_randcnt _ _ (randinit_seeded_WF c1 flag h1))
    (randctx.WF_set_randcnt _ _ (randinit_seeded_WF c2 flag h2)) rfl ht rfl rfl rfl)

theorem isaac_rand_zero (s : randctx) (hwf : s.WF) (h0 : s.randcnt = 0) :
    isaac_rand s = some ((isaac_idx s).randrsl.getD (RANDSIZ - 1) 0,
      { isaac_idx s with randcnt := RANDSIZ - 1 }) := by
  have hi := isaac_eq_idx { s with randcnt := ub4 (0 + (2 ^ 32 - 1)) }
    (randctx.WF_set_randcnt s _ hwf)
  rw [isaac_idx_set_randcnt] at hi
  have hlen := (isaac_idx_WF s hwf).1
  generalize isaac_idx s = t at hi hlen ⊢
  have hr : t.randrsl[RANDSIZ - 1]? = some (t.randrsl.getD (RANDSIZ - 1) 0) :=
    getElem?_eq_some_getD (by rw [hlen, RANDSIZ_eq]; omega)
  simp only [isaac_rand, h0, if_true, Option.bind_eq_bind, hi, Option.some_bind, hr,
    Option.pure_def]

theorem isaac_rand_pos (s : randctx) (hwf : s.WF) (h0 : 0 < s.randcnt)
    (hN : s.randcnt ≤ RANDSIZ) :
    isaac_rand s = some (s.randrsl.getD (s.randcnt - 1) 0,
      { s with randcnt := s.randcnt - 1 }) := by
  have hne : s.randcnt ≠ 0 := by omega
  have hdec : ub4 (s.randcnt + (2 ^ 32 - 1)) = s.randcnt - 1 := by
    rw [RANDSIZ_eq] at hN
    simp only [ub4]
    omega
  have hr : s.randrsl[s.randcnt - 1]? = some (s.randrsl.getD (s.randcnt - 1) 0) :=
    getElem?_eq_some_getD (by rw [hwf.1]; omega)
  simp only [isaac_rand, hne, if_false, hdec, hr, Option.bind_eq_bind, Option.some_bind,
    Option.pure_def]

theorem isaac_rand_iter_succ (n : Nat) (r : randctx) :
    isaac_rand_iter (n + 1) r =
      (isaac_rand_iter n r).bind (fun t => (isaac_rand t).map Prod.snd) := rfl

/-- Reading `j` words of a block that has at least `j` words left only moves
the cursor. -/
theorem isaac_rand_iter_le (s : randctx) (hwf : s.WF) (hN : s.randcnt ≤ RANDSIZ) (j : Nat)
    (hj : j ≤ s.randcnt) :
    isaac_rand_iter j s = some { s with randcnt := s.randcnt - j } := by
  induction j with
  | zero => simp [isaac_rand_iter]
  | succ j ih =>
    have hp := isaac_rand_pos { s with randcnt := s.randcnt - j }
      (randctx.WF_set_randcnt s _ hwf) (by dsimp only; omega) (by dsimp only; omega)
    simp only [isaac_rand_iter, ih (by omega), Option.some_bind, hp, Option.map_some']
    congr 2

/-- The cursor invariant: on a well-formed context whose cursor is at most
`RANDSIZ`, `isaac_rand` returns, the read is inside the results array, and the
invariant holds again with the cursor below `RANDSIZ`. -/
theorem isaac_rand_total (s : randctx) (hwf : s.WF) (hN : s.randcnt ≤ RANDSIZ) :
    ∃ v t, isaac_rand s = some (v, t) ∧ t.WF ∧ t.randcnt ≤ RANDSIZ - 1 ∧
      t.randrsl[t.randcnt]? = some v := by
  have hR := RANDSIZ_eq
  by_cases h0 : s.randcnt = 0
  · have hz := isaac_rand_zero s hwf h0
    have hw := isaac_idx_WF s hwf
    generalize isaac_idx s = t at hz hw
    exact ⟨_, _, hz, randctx.WF_set_randcnt _ _ hw, Nat.le_refl _,
      getElem?_eq_some_getD (by dsimp only; rw [hw.1]; omega)⟩
  · refine ⟨_, _, isaac_rand_pos s hwf (by omega) hN, randctx.WF_set_randcnt _ _ hwf,
      by dsimp only; omega, ?_⟩
    exact getElem?_eq_some_getD (by dsimp only; rw [hwf.1]; omega)

theorem isaac_rand_iter_total (s : randctx) (hwf : s.WF) (hN : s.randcnt ≤ RANDSIZ) (n : Nat) :
    ∃ t, isaac_rand_iter n s = some t ∧ t.WF ∧ t.randcnt ≤ RANDSIZ ∧
      (1 ≤ n → t.randcnt ≤ RANDSIZ - 1) := by
  induction n with
  | zero => exact ⟨s, rfl, hwf, hN, by omega⟩
  | succ n ih =>
    obtain ⟨t, ht, htwf, htN, _⟩ := ih
    obtain ⟨v, u, hu, huwf, huN, _⟩ := isaac_rand_total t htwf htN
    refine ⟨u, ?_, huwf, by omega, fun _ => huN⟩
    simp [isaac_rand_iter, ht, hu]

theorem isaac_rand_nth_total (s : randctx) (hwf : s.WF) (hN : s.randcnt ≤ RANDSIZ) (n : Nat) :
    ∃ v, isaac_rand_nth n s = some v := by
  obtain ⟨t, ht, htwf, htN, _⟩ := isaac_rand_iter_total s hwf hN (n - 1)
  obtain ⟨v, u, hu, _⟩ := isaac_rand_total t htwf htN
  exact ⟨v, by simp [isaac_rand_nth, ht, hu]⟩

theorem generated_total (ctx : randctx) (flag : Int) (h : ctx.WF) (n : Nat) :
    ∃ v, generated ctx flag n = some v := by
  obtain ⟨v, hv⟩ := isaac_rand_nth_total _ (randinit_WF ctx flag h) (Nat.le_refl _) n
  exact ⟨v, by rw [generated, randinit_eq ctx flag h, Option.some_bind]; exact hv⟩

theorem calloc_ctx_WF : calloc_ctx.WF := by
  simp [randctx.WF, calloc_ctx]

theorem full_ctx_WF : full_ctx.WF := by
  simp [randctx.WF, full_ctx]

theorem other_ctx_WF : other_ctx.WF := by
  simp [randctx.WF, other_ctx]

theorem other_ctx2_WF : other_ctx2.WF := by
  simp [randctx.WF, other_ctx2]

/-- From a full block, the `k`-th consecutive `isaac_rand` returns the entry at
index `RANDSIZ - k`. -/
theorem isaac_rand_nth_full_block (s : randctx) (k : Nat) (hwf : s.WF)
    (hcnt : s.randcnt = RANDSIZ) (hk1 : 1 ≤ k) (hk : k ≤ RANDSIZ) :
    ∃ v, s.randrsl[RANDSIZ - k]? = some v ∧ isaac_rand_nth k s = some v := by
  have hR := RANDSIZ_eq
  have hit := isaac_rand_iter_le s hwf (by omega) (k - 1) (by omega)
  have hp := isaac_rand_pos { s with randcnt := s.randcnt - (k - 1) }
    (randctx.WF_set_randcnt s _ hwf) (by dsimp only; omega) (by dsimp only; omega)
  have e : s.randcnt - (k - 1) - 1 = RANDSIZ - k := by omega
  refine ⟨s.randrsl.getD (RANDSIZ - k) 0, getElem?_eq_some_getD (by rw [hwf.1]; omega), ?_⟩
  simp only [isaac_rand_nth, hit, Option.some_bind, hp, Option.map_some', e]

/-! ## The tables of the seeded and the unseeded initialisation -/

theorem write8_fill (addf : Nat → mixvars → mixvars) (v0 : mixvars) (mem0 : List Nat)
    (j : Nat) (S : mixvars) :
    write8 (fill_table addf v0 j ++ mem0.drop (8 * j)) j S =
      fill_table addf v0 j ++ S.toList ++ mem0.drop (8 * (j + 1)) := by
  have hl := fill_table_length addf v0 j
  unfold write8
  rw [List.take_left' hl, List.drop_append_eq_append_drop, List.drop_of_length_le (by omega),
    hl, Nat.add_sub_cancel_left, List.drop_drop, List.nil_append, Nat.mul_succ]

theorem getD_append_drop (u t : List Nat) (n k : Nat) (hu : u.length = n) :
    (u ++ t.drop n).getD (n + k) 0 = t.getD (n + k) 0 := by
  rw [List.getD_eq_getElem?_getD, List.getD_eq_getElem?_getD,
    List.getElem?_append_right (by omega), hu, Nat.add_sub_cancel_left, List.getElem?_drop]

theorem add8_total_append_drop (u t : List Nat) (n : Nat) (v : mixvars) (hu : u.length = n) :
    add8_total (u ++ t.drop n) n v = add8_total t n v := by
  have e := getD_append_drop u t n
  have e0 := e 0 hu
  simp only [Nat.add_zero] at e0
  simp only [add8_total, e0, e 1 hu, e 2 hu, e 3 hu, e 4 hu, e 5 hu, e 6 hu, e 7 hu]

theorem seed_ref_pass1_eq (seed mem0 : List Nat) (v : mixvars) (j : Nat) :
    seed_ref_pass1 seed j { S := v, T := mem0 } =
      { S := fill_state (seed_add seed) j v,
        T := fill_table (seed_add seed) v j ++ mem0.drop (8 * j) } := by
  induction j with
  | zero => simp [seed_ref_pass1, fill_state, fill_table]
  | succ j ih =>
    simp only [seed_ref_pass1, ih, write8_fill]
    simp [fill_state, fill_table, seed_add]

theorem seed_ref_pass2_eq (t1 : List Nat) (v : mixvars) (j : Nat) :
    seed_ref_pass2 j { S := v, T := t1 } =
      { S := fill_state (seed_add t1) j v,
        T := fill_table (seed_add t1) v j ++ t1.drop (8 * j) } := by
  induction j with
  | zero => simp [seed_ref_pass2, fill_state, fill_table]
  | succ j ih =>
    simp only [seed_ref_pass2, ih, write8_fill,
      add8_total_append_drop _ _ _ _ (fill_table_length _ _ _)]
    simp [fill_state, fill_table, seed_add]

/-- For a nonzero flag the table that `randinit` fills in is the seeded table
of the description. -/
theorem randinit_table_seeded (seed mem0 : List Nat) (flag : Int) (hflag : flag ≠ 0)
    (hmem : mem0.length = RANDSIZ) :
    randinit_table seed flag = seeded_table_ref seed mem0 := by
  have h1 : (fill_table (seed_add seed) scrambled (RANDSIZ / 8)).length = RANDSIZ := by
    rw [fill_table_length, RANDSIZ_eq]
  simp only [seeded_table_ref, seed_ref_pass1_eq, drop_RANDSIZ _ hmem, List.append_nil,
    seed_ref_pass2_eq, drop_RANDSIZ _ h1, randinit_table, hflag, if_true, ne_eq,
    not_false_eq_true]

/-- The words `8j .. 8j+7` of a filled table are the scratch words after group
`j`. -/
theorem fill_table_block (addf : Nat → mixvars → mixvars) (v : mixvars) (n j : Nat)
    (hj : j < n) :
    ((fill_table addf v n).drop (8 * j)).take 8 = (fill_state addf (j + 1) v).toList := by
  induction n with
  | zero => omega
  | succ n ih =>
    have hl := fill_table_length addf v n
    simp only [fill_table]
    by_cases hjn : j < n
    · rw [List.drop_append_of_le_length (by omega), List.take_append_of_le_length
        (by rw [List.length_drop]; omega)]
      exact ih hjn
    · have e : j = n := by omega
      subst e
      rw [List.drop_append_eq_append_drop, List.drop_of_length_le (by omega), hl,
        Nat.sub_self, List.drop_zero, List.nil_append]
      exact List.take_of_length_le (by simp [mixvars.toList])

theorem fill_state_noseed (v : mixvars) (j : Nat) : fill_state noseed_add j v = mix^[j] v := by
  induction j with
  | zero => rfl
  | succ j ih => simp only [fill_state, noseed_add, ih, Function.iterate_succ_apply']

theorem scrambled_eq : scrambled = mix^[4] golden := rfl

/-! ## Cursor and counter along a run of `isaac_rand` -/

theorem isaac_rand_refills_succ (n : Nat) (r : randctx) :
    isaac_rand_refills (n + 1) r =
      (isaac_rand_iter n r).bind fun t =>
        (isaac_rand_refills n r).map fun k => k + (if t.randcnt = 0 then 1 else 0) := rfl

/-- Closed form of cursor, counter and number of `isaac` runs after `n ≥ 1`
evaluations of `isaac_rand` from a full block. -/
theorem isaac_rand_iter_closed_form (r : randctx) (hwf : r.WF) (hcnt : r.randcnt = RANDSIZ)
    (hc : r.randc < 2 ^ 32) (n : Nat) (hn : 1 ≤ n) :
    ∃ t, isaac_rand_iter n r = some t ∧ t.WF ∧
      t.randcnt = RANDSIZ - 1 - (n - 1) % RANDSIZ ∧
      t.randc = (r.randc + (n - 1) / RANDSIZ) % 2 ^ 32 ∧
      isaac_rand_refills n r = some ((n - 1) / RANDSIZ) := by
  have hR := RANDSIZ_eq
  induction n, hn using Nat.le_induction with
  | base =>
    have hp := isaac_rand_pos r hwf (by omega) (by omega)
    refine ⟨{ r with randcnt := r.randcnt - 1 }, ?_, randctx.WF_set_randcnt r _ hwf, ?_, ?_, ?_⟩
    · rw [isaac_rand_iter_succ]; simp only [isaac_rand_iter, Option.some_bind, hp,
        Option.map_some']
    · dsimp only; rw [hR] at hcnt ⊢; omega
    · dsimp only; rw [hR]; omega
    · rw [isaac_rand_refills_succ]
      simp only [isaac_rand_iter, isaac_rand_refills, Option.some_bind, Option.map_some']
      rw [hR] at hcnt ⊢
      simp [hcnt]
  | succ n hn ih =>
    obtain ⟨t, ht, htwf, htc, htr, htf⟩ := ih
    rw [hR] at htc htr
    have hfill : isaac_rand_refills (n + 1) r =
        some ((n - 1) / RANDSIZ + (if t.randcnt = 0 then 1 else 0)) := by
      rw [isaac_rand_refills_succ, ht, Option.some_bind, htf, Option.map_some']
    by_cases h0 : t.randcnt = 0
    · have hz := isaac_rand_zero t htwf h0
      have hw := isaac_idx_WF t htwf
      have hcc := isaac_idx_randc t
      generalize isaac_idx t = u at hz hw hcc
      refine ⟨{ u with randcnt := RANDSIZ - 1 }, ?_, randctx.WF_set_randcnt u _ hw, ?_, ?_, ?_⟩
      · rw [isaac_rand_iter_succ, ht, Option.some_bind, hz, Option.map_some']
      · dsimp only; rw [hR]; omega
      · dsimp only; rw [hcc, htr, hR]; omega
      · rw [hfill, if_pos h0, hR]; congr 1; omega
    · have hp := isaac_rand_pos t htwf (by omega) (by rw [htc, hR]; omega)
      refine ⟨{ t with randcnt := t.randcnt - 1 }, ?_, randctx.WF_set_randcnt t _ htwf,
        ?_, ?_, ?_⟩
      · rw [isaac_rand_iter_succ, ht, Option.some_bind, hp, Option.map_some']
      · dsimp only; rw [hR]; omega
      · dsimp only; rw [htr, hR]; omega
      · rw [hfill, if_neg h0, hR]; congr 1; omega

/-- The context that `randinit` returns holds a full block, and its counter is
`1`. -/
theorem randinit_full_block (ctx : randctx) (flag : Int) (hwf : ctx.WF) :
    ∃ r, randinit ctx flag = some r ∧ r.WF ∧ r.randcnt = RANDSIZ ∧ r.randc = 1 := by
  have hr := randinit_eq ctx flag hwf
  have hrwf := randinit_WF ctx flag hwf
  have hc1 : (isaac_idx (randinit_seeded ctx flag)).randc = 1 := by
    rw [isaac_idx_randc]; rfl
  generalize isaac_idx (randinit_seeded ctx flag) = u at hr hrwf hc1
  exact ⟨_, hr, hrwf, rfl, hc1⟩

/-- Cursor and counter after `n ≥ 0` evaluations of `isaac_rand` from a full
block with counter `1`. -/
theorem isaac_rand_iter_cursor_counter (r : randctx) (hwf : r.WF) (hcnt : r.randcnt = RANDSIZ)
    (hc : r.randc = 1) (n : Nat) :
    ∃ t, isaac_rand_iter n r = some t ∧
      t.randcnt = (if n = 0 then 256 else 255 - (n - 1) % 256) ∧
      t.randc = (if n = 0 then 1 else (1 + (n - 1) / 256) % 4294967296) := by
  by_cases h0 : n = 0
  · subst h0
    exact ⟨r, rfl, by rw [hcnt, RANDSIZ_eq]; rfl, by rw [hc]; rfl⟩
  · obtain ⟨t, ht, _, h1, h2, _⟩ := isaac_rand_iter_closed_form r hwf hcnt
      (by rw [hc]; decide) n (by omega)
    rw [RANDSIZ_eq] at h1 h2
    rw [hc] at h2
    exact ⟨t, ht, by rw [h1, if_neg h0], by rw [h2, if_neg h0]; rfl⟩

/-- Two different numbers of evaluations less than `RANDSIZ * 2^32` apart give
different cursors or different counters. -/
theorem cursor_counter_differ (j k : Nat) (hjk : j ≠ k)
    (h1 : j < k + 256 * 4294967296) (h2 : k < j + 256 * 4294967296) :
    (if j = 0 then 256 else 255 - (j - 1) % 256) ≠
        (if k = 0 then 256 else 255 - (k - 1) % 256) ∨
      (if j = 0 then 1 else (1 + (j - 1) / 256) % 4294967296) ≠
        (if k = 0 then 1 else (1 + (k - 1) / 256) % 4294967296) := by
  by_cases hj : j = 0
  · left; rw [if_pos hj, if_neg (by omega)]; omega
  · by_cases hk : k = 0
    · left; rw [if_pos hk, if_neg hj]; omega
    · rw [if_neg hj, if_neg hk, if_neg hj, if_neg hk]
      omega

/-! ## What a block generation leaves in `randrsl` and `randb` -/

/-- The block that `isaac` generates is the same for two well-formed contexts
that agree on `randmem`, `randa`, `randb` and `randc`. -/
theorem isaac_idx_congr_fields (s1 s2 : randctx) (h1 : s1.WF) (h2 : s2.WF)
    (hmem : s1.randmem = s2.randmem) (ha : s1.randa = s2.randa) (hb : s1.randb = s2.randb)
    (hc : s1.randc = s2.randc) :
    (isaac_idx s1).randmem = (isaac_idx s2).randmem ∧
    (isaac_idx s1).randrsl = (isaac_idx s2).randrsl ∧
    (isaac_idx s1).randa = (isaac_idx s2).randa ∧
    (isaac_idx s1).randb = (isaac_idx s2).randb ∧
    (isaac_idx s1).randc = (isaac_idx s2).randc := by
  have e := (isaac_idx_congr s1 { s2 with randcnt := s1.randcnt } h1
    (randctx.WF_set_randcnt s2 _ h2) rfl hmem ha hb hc).trans
    (isaac_idx_set_randcnt s2 s1.randcnt)
  generalize isaac_idx s1 = t1 at e
  generalize isaac_idx s2 = t2 at e
  subst e
  exact ⟨rfl, rfl, rfl, rfl, rfl⟩

/-- After a block generation `randb` is the last entry of `randrsl`. -/
theorem isaac_idx_randb (s : randctx) (hwf : s.WF) :
    (isaac_idx s).randrsl[RANDSIZ - 1]? = some (isaac_idx s).randb := by
  have hN : RANDSIZ = (RANDSIZ - 1) + 1 := by rw [RANDSIZ_eq]
  have hl := (isaac_idx_run_length (RANDSIZ - 1)
    { a := s.randa, b := (s.randb + (s.randc + 1) % 2 ^ 32) % 2 ^ 32, mem := s.randmem,
      rsl := s.randrsl }).2
  simp only [isaac_idx]
  rw [hN, isaac_idx_run]
  simp only [Nat.add_sub_cancel]
  generalize isaac_idx_run (RANDSIZ - 1)
    { a := s.randa, b := (s.randb + (s.randc + 1) % 2 ^ 32) % 2 ^ 32, mem := s.randmem,
      rsl := s.randrsl } = u at hl ⊢
  simp only [isaac_idx_step]
  rw [List.getElem?_set_self (by rw [hl]; simp only; rw [hwf.1, RANDSIZ_eq]; omega)]

/-- The relation `randb = randrsl[RANDSIZ-1]` holds after any number of
evaluations of `isaac_rand` once it holds. -/
theorem isaac_rand_iter_randb (r : randctx) (hwf : r.WF) (hN : r.randcnt ≤ RANDSIZ)
    (hb : r.randrsl[RANDSIZ - 1]? = some r.randb) (n : Nat) :
    ∃ t, isaac_rand_iter n r = some t ∧ t.WF ∧ t.randcnt ≤ RANDSIZ ∧
      t.randrsl[RANDSIZ - 1]? = some t.randb := by
  induction n with
  | zero => exact ⟨r, rfl, hwf, hN, hb⟩
  | succ n ih =>
    obtain ⟨t, ht, htwf, htN, htb⟩ := ih
    by_cases h0 : t.randcnt = 0
    · have hz := isaac_rand_zero t htwf h0
      have hw := isaac_idx_WF t htwf
      have hbb := isaac_idx_randb t htwf
      generalize isaac_idx t = u at hz hw hbb
      exact ⟨{ u with randcnt := RANDSIZ - 1 },
        by rw [isaac_rand_iter_succ, ht, Option.some_bind, hz, Option.map_some'],
        randctx.WF_set_randcnt u _ hw, Nat.sub_le _ _, hbb⟩
    · have hp := isaac_rand_pos t htwf (by omega) htN
      exact ⟨{ t with randcnt := t.randcnt - 1 },
        by rw [isaac_rand_iter_succ, ht, Option.some_bind, hp, Option.map_some'],
        randctx.WF_set_randcnt t _ htwf, by dsimp only; omega, htb⟩

/-! ## `mix` is a bijection on octuples of 32-bit words -/

/-- The macro `mix` is its eight lines, each followed by a cyclic renaming. -/
theorem mix_eq_lines (v : mixvars) :
    mix v =
      mix_rot (mix_line (fun a => (a &&& 0xffffffff) >>> 9)
      (mix_rot (mix_line (fun h => ub4 (h <<< 8))
      (mix_rot (mix_line (fun g => (g &&& 0xffffffff) >>> 4)
      (mix_rot (mix_line (fun f => ub4 (f <<< 10))
      (mix_rot (mix_line (fun e => (e &&& 0xffffffff) >>> 16)
      (mix_rot (mix_line (fun d => ub4 (d <<< 8))
      (mix_rot (mix_line (fun c => (c &&& 0xffffffff) >>> 2)
      (mix_rot (mix_line (fun b => ub4 (b <<< 11)) v))))))))))))))) := rfl

theorem ub4_lt (x : Nat) : ub4 x < 2 ^ 32 := Nat.mod_lt _ (by decide)

theorem shr_mask_lt (k x : Nat) : (x &&& 0xffffffff) >>> k < 2 ^ 32 := by
  rw [and_mask, Nat.shiftRight_eq_div_pow]
  exact Nat.lt_of_le_of_lt (Nat.div_le_self _ _) (Nat.mod_lt _ (by decide))

theorem usub_add (x y : Nat) (hx : x < 2 ^ 32) : usub (ub4 (x + y)) y = x := by
  simp only [usub, ub4]
  omega

theorem add_usub (x y : Nat) (hx : x < 2 ^ 32) : ub4 (usub x y + y) = x := by
  simp only [usub, ub4]
  omega

theorem mix_rot_Words32 (v : mixvars) (h : v.Words32) : (mix_rot v).Words32 := by
  obtain ⟨a, b, c, d, e, f, g, h⟩ := h
  exact ⟨b, c, d, e, f, g, h, a⟩

theorem mix_unrot_Words32 (v : mixvars) (h : v.Words32) : (mix_unrot v).Words32 := by
  obtain ⟨a, b, c, d, e, f, g, h⟩ := h
  exact ⟨h, a, b, c, d, e, f, g⟩

theorem mix_unrot_rot (v : mixvars) : mix_unrot (mix_rot v) = v := rfl

theorem mix_rot_unrot (v : mixvars) : mix_rot (mix_unrot v) = v := rfl

theorem mix_line_Words32 (sh : Nat → Nat) (hsh : ∀ x, sh x < 2 ^ 32) (v : mixvars)
    (h : v.Words32) : (mix_line sh v).Words32 := by
  obtain ⟨a, b, c, d, e, f, g, h⟩ := h
  exact ⟨Nat.xor_lt_two_pow a (hsh _), ub4_lt _, c, ub4_lt _, e, f, g, h⟩

theorem mix_line_inv_Words32 (sh : Nat → Nat) (hsh : ∀ x, sh x < 2 ^ 32) (v : mixvars)
    (h : v.Words32) : (mix_line_inv sh v).Words32 := by
  obtain ⟨a, b, c, d, e, f, g, h⟩ := h
  exact ⟨Nat.xor_lt_two_pow a (hsh _), ub4_lt _, c, ub4_lt _, e, f, g, h⟩

theorem mix_line_inv_line (sh : Nat → Nat) (v : mixvars) (h : v.Words32) :
    mix_line_inv sh (mix_line sh v) = v := by
  obtain ⟨_, hb, _, hd, _⟩ := h
  cases v
  simp only [mix_line, mix_line_inv] at hb hd ⊢
  simp only [usub_add _ _ hb, usub_add _ _ hd, Nat.xor_cancel_right]

theorem mix_line_line_inv (sh : Nat → Nat) (v : mixvars) (h : v.Words32) :
    mix_line sh (mix_line_inv sh v) = v := by
  obtain ⟨_, hb, _, hd, _⟩ := h
  cases v
  simp only [mix_line, mix_line_inv] at hb hd ⊢
  simp only [add_usub _ _ hb, add_usub _ _ hd, Nat.xor_cancel_right]

theorem mix_Words32 (v : mixvars) (h : v.Words32) : (mix v).Words32 := by
  rw [mix_eq_lines]
  have s1 : ∀ k x, ub4 (x <<< k) < 2 ^ 32 := fun k x => ub4_lt _
  have s2 : ∀ k x, (x &&& 0xffffffff) >>> k < 2 ^ 32 := shr_mask_lt
  have step : ∀ sh : Nat → Nat, (∀ x, sh x < 2 ^ 32) → ∀ w : mixvars, w.Words32 →
      (mix_rot (mix_line sh w)).Words32 := fun sh hsh w hw =>
    mix_rot_Words32 _ (mix_line_Words32 sh hsh w hw)
  exact step _ (s2 9) _ (step _ (s1 8) _ (step _ (s2 4) _ (step _ (s1 10) _
    (step _ (s2 16) _ (step _ (s1 8) _ (step _ (s2 2) _ (step _ (s1 11) _ h)))))))

theorem mix_inv_Words32 (v : mixvars) (h : v.Words32) : (mix_inv v).Words32 := by
  unfold mix_inv
  have s1 : ∀ k x, ub4 (x <<< k) < 2 ^ 32 := fun k x => ub4_lt _
  have s2 : ∀ k x, (x &&& 0xffffffff) >>> k < 2 ^ 32 := shr_mask_lt
  have step : ∀ sh : Nat → Nat, (∀ x, sh x < 2 ^ 32) → ∀ w : mixvars, w.Words32 →
      (mix_line_inv sh (mix_unrot w)).Words32 := fun sh hsh w hw =>
    mix_line_inv_Words32 sh hsh _ (mix_unrot_Words32 w hw)
  exact step _ (s1 11) _ (step _ (s2 2) _ (step _ (s1 8) _ (step _ (s2 16) _
    (step _ (s1 10) _ (step _ (s2 4) _ (step _ (s1 8) _ (step _ (s2 9) _ h)))))))

/-- Undoing `mix` after `mix` gives back the octuple. -/
theorem mix_inv_mix (v : mixvars) (h : v.Words32) : mix_inv (mix v) = v := by
  have s1 : ∀ k x, ub4 (x <<< k) < 2 ^ 32 := fun k x => ub4_lt _
  have s2 : ∀ k x, (x &&& 0xffffffff) >>> k < 2 ^ 32 := shr_mask_lt
  have step : ∀ sh : Nat → Nat, (∀ x, sh x < 2 ^ 32) → ∀ w : mixvars, w.Words32 →
      (mix_rot (mix_line sh w)).Words32 := fun sh hsh w hw =>
    mix_rot_Words32 _ (mix_line_Words32 sh hsh w hw)
  have h1 := step _ (s1 11) _ h
  have h2 := step _ (s2 2) _ h1
  have h3 := step _ (s1 8) _ h2
  have h4 := step _ (s2 16) _ h3
  have h5 := step _ (s1 10) _ h4
  have h6 := step _ (s2 4) _ h5
  have h7 := step _ (s1 8) _ h6
  rw [mix_eq_lines]
  unfold mix_inv
  simp only [mix_unrot_rot]
  rw [mix_line_inv_line _ _ h7, mix_unrot_rot, mix_line_inv_line _ _ h6, mix_unrot_rot,
    mix_line_inv_line _ _ h5, mix_unrot_rot, mix_line_inv_line _ _ h4, mix_unrot_rot,
    mix_line_inv_line _ _ h3, mix_unrot_rot, mix_line_inv_line _ _ h2, mix_unrot_rot,
    mix_line_inv_line _ _ h1, mix_unrot_rot, mix_line_inv_line _ _ h]

/-- Doing `mix` after undoing it gives back the octuple. -/
theorem mix_mix_inv (v : mixvars) (h : v.Words32) : mix (mix_inv v) = v := by
  have s1 : ∀ k x, ub4 (x <<< k) < 2 ^ 32 := fun k x => ub4_lt _
  have s2 : ∀ k x, (x &&& 0xffffffff) >>> k < 2 ^ 32 := shr_mask_lt
  have u := mix_unrot_Words32
  have step : ∀ sh : Nat → Nat, (∀ x, sh x < 2 ^ 32) → ∀ w : mixvars, w.Words32 →
      (mix_unrot (mix_line_inv sh w)).Words32 := fun sh hsh w hw =>
    mix_unrot_Words32 _ (mix_line_inv_Words32 sh hsh w hw)
  have h0 := u _ h
  have h1 := step _ (s2 9) _ h0
  have h2 := step _ (s1 8) _ h1
  have h3 := step _ (s2 4) _ h2
  have h4 := step _ (s1 10) _ h3
  have h5 := step _ (s2 16) _ h4
  have h6 := step _ (s1 8) _ h5
  have h7 := step _ (s2 2) _ h6
  rw [mix_eq_lines]
  unfold mix_inv
  simp only []
  rw [mix_line_line_inv _ _ h7, mix_rot_unrot, mix_line_line_inv _ _ h6, mix_rot_unrot,
    mix_line_line_inv _ _ h5, mix_rot_unrot, mix_line_line_inv _ _ h4, mix_rot_unrot,
    mix_line_line_inv _ _ h3, mix_rot_unrot, mix_line_line_inv _ _ h2, mix_rot_unrot,
    mix_line_line_inv _ _ h1, mix_rot_unrot, mix_line_line_inv _ _ h0, mix_rot_unrot]

theorem mix_injective (v w : mixvars) (hv : v.Words32) (hw : w.Words32) (h : mix v = mix w) :
    v = w := by
  rw [← mix_inv_mix v hv, ← mix_inv_mix w hw, h]

/-! ## A block generation is injective on `randmem`, `randa`, `randb`, `randc` -/

theorem xor_swap {a b c d : Nat} (h : a ^^^ b = c ^^^ d) : a ^^^ c = b ^^^ d := by
  apply Nat.eq_of_testBit_eq
  intro i
  have hi := congrArg (fun x => Nat.testBit x i) h
  simp only [Nat.testBit_xor] at hi ⊢
  revert hi
  cases a.testBit i <;> cases b.testBit i <;> cases c.testBit i <;> cases d.testBit i <;> simp

theorem shl_xor (n a b : Nat) :
    ((a ^^^ b) <<< n) % 2 ^ 32 = (a <<< n) % 2 ^ 32 ^^^ (b <<< n) % 2 ^ 32 := by
  apply Nat.eq_of_testBit_eq
  intro i
  simp only [Nat.testBit_xor, Nat.testBit_mod_two_pow, Nat.testBit_shiftLeft]
  cases decide (i < 32) <;> cases decide (i ≥ n) <;> simp

theorem shr_xor (n a b : Nat) :
    ((a ^^^ b) % 2 ^ 32) >>> n = (a % 2 ^ 32) >>> n ^^^ (b % 2 ^ 32) >>> n := by
  apply Nat.eq_of_testBit_eq
  intro i
  simp only [Nat.testBit_xor, Nat.testBit_mod_two_pow, Nat.testBit_shiftRight]
  cases decide (n + i < 32) <;> simp

theorem shl_fix (n d : Nat) (hn : 0 < n) (h : d = (d <<< n) % 2 ^ 32) : d = 0 := by
  apply Nat.eq_of_testBit_eq
  intro i
  induction i using Nat.strong_induction_on with
  | _ i ih =>
    rw [h, Nat.testBit_mod_two_pow, Nat.testBit_shiftLeft, Nat.zero_testBit]
    by_cases hi : i ≥ n
    · rw [ih (i - n) (by omega), Nat.zero_testBit]; simp
    · simp [hi]

theorem shr_fix (n d : Nat) (hn : 0 < n) (h : d = (d % 2 ^ 32) >>> n) : d = 0 := by
  rw [Nat.shiftRight_eq_div_pow] at h
  by_contra h0
  have h1 : d % 2 ^ 32 ≤ d := Nat.mod_le _ _
  have h2 : (d % 2 ^ 32) / 2 ^ n ≤ d / 2 ^ n := Nat.div_le_div_right h1
  have h3 : d / 2 ^ n < d := Nat.div_lt_self (by omega) (Nat.one_lt_two_pow (by omega))
  omega

theorem isaac_idx_shift_xor (i a b : Nat) :
    isaac_idx_shift i (a ^^^ b) = isaac_idx_shift i a ^^^ isaac_idx_shift i b := by
  unfold isaac_idx_shift
  split
  · exact shl_xor 13 a b
  · exact shr_xor 6 a b
  · exact shl_xor 2 a b
  · exact shr_xor 16 a b

theorem isaac_idx_shift_fix (i d : Nat) (h : d = isaac_idx_shift i d) : d = 0 := by
  unfold isaac_idx_shift at h
  split at h
  · exact shl_fix 13 d (by decide) h
  · exact shr_fix 6 d (by decide) h
  · exact shl_fix 2 d (by decide) h
  · exact shr_fix 16 d (by decide) h

theorem isaac_idx_shift_lt (i a : Nat) : isaac_idx_shift i a < 2 ^ 32 := by
  unfold isaac_idx_shift
  split
  · exact Nat.mod_lt _ (by decide)
  · rw [Nat.shiftRight_eq_div_pow]
    exact Nat.lt_of_le_of_lt (Nat.div_le_self _ _) (Nat.mod_lt _ (by decide))
  · exact Nat.mod_lt _ (by decide)
  · rw [Nat.shiftRight_eq_div_pow]
    exact Nat.lt_of_le_of_lt (Nat.div_le_self _ _) (Nat.mod_lt _ (by decide))

/-- The update `a ^ shift(a)` of the accumulator is injective. -/
theorem xor_shift_inj (i a1 a2 : Nat)
    (h : a1 ^^^ isaac_idx_shift i a1 = a2 ^^^ isaac_idx_shift i a2) : a1 = a2 := by
  have h1 := xor_swap h
  rw [← isaac_idx_shift_xor] at h1
  exact Nat.xor_eq_zero.mp (isaac_idx_shift_fix i _ h1)

theorem getD_lt_of_all_lt (l : List Nat) (i : Nat) (h : ∀ x ∈ l, x < 2 ^ 32) :
    l.getD i 0 < 2 ^ 32 := by
  by_cases hi : i < l.length
  · rw [List.getD_eq_getElem _ _ hi]
    exact h _ (List.getElem_mem hi)
  · rw [List.getD_eq_default _ _ (by omega)]
    decide

theorem isaac_idx_step_Words32 (i : Nat) (s : idx_state) (h : s.Words32) :
    (isaac_idx_step i s).Words32 := by
  refine ⟨Nat.mod_lt _ (by decide), Nat.mod_lt _ (by decide), fun x hx => ?_⟩
  simp only [isaac_idx_step] at hx
  rcases List.mem_or_eq_of_mem_set hx with hx | hx
  · exact h.2.2 x hx
  · rw [hx]; exact Nat.mod_lt _ (by decide)

theorem isaac_idx_run_Words32 (k : Nat) (s : idx_state) (h : s.Words32) :
    (isaac_idx_run k s).Words32 := by
  induction k with
  | zero => exact h
  | succ k ih => exact isaac_idx_step_Words32 k _ ih

/-- One step of the index-arithmetic loop is injective on `a`, `b`, `mem`. -/
theorem isaac_idx_step_inj (i : Nat) (s1 s2 : idx_state) (l1 : i < s1.mem.length)
    (l2 : i < s2.mem.length) (w1 : s1.Words32) (w2 : s2.Words32)
    (ea : (isaac_idx_step i s1).a = (isaac_idx_step i s2).a)
    (eb : (isaac_idx_step i s1).b = (isaac_idx_step i s2).b)
    (em : (isaac_idx_step i s1).mem = (isaac_idx_step i s2).mem) :
    s1.a = s2.a ∧ s1.b = s2.b ∧ s1.mem = s2.mem := by
  obtain ⟨a1, b1, m1, r1⟩ := s1
  obtain ⟨a2, b2, m2, r2⟩ := s2
  obtain ⟨ha1, hb1, hm1⟩ := w1
  obtain ⟨ha2, hb2, hm2⟩ := w2
  simp only [isaac_idx_step] at ea eb em l1 l2 ha1 ha2 hb1 hb2 hm1 hm2 ⊢
  have hx1 := getD_lt_of_all_lt m1 i hm1
  have hx2 := getD_lt_of_all_lt m2 i hm2
  generalize hX1 : m1.getD i 0 = x1 at ea eb em hx1
  generalize hX2 : m2.getD i 0 = x2 at ea eb em hx2
  -- the stored words agree
  have hy := congrArg (fun l : List Nat => l[i]?) em
  simp only [List.getElem?_set_self l1, List.getElem?_set_self l2, Option.some.injEq] at hy
  rw [← em] at eb
  rw [hy] at em eb
  -- hence the words read at `i` agree
  have hx : x1 = x2 := by omega
  subst hx
  have hm : m1 = m2 := by
    apply List.ext_getElem?
    intro k
    by_cases hk : i = k
    · subst hk
      rw [getElem?_eq_some_getD l1, getElem?_eq_some_getD l2, hX1, hX2]
    · have := congrArg (fun l : List Nat => l[k]?) em
      simpa only [List.getElem?_set_ne hk] using this
  subst hm
  have hs1 := isaac_idx_shift_lt i a1
  have hs2 := isaac_idx_shift_lt i a2
  have hf1 := Nat.xor_lt_two_pow ha1 hs1
  have hf2 := Nat.xor_lt_two_pow ha2 hs2
  have hf : a1 ^^^ isaac_idx_shift i a1 = a2 ^^^ isaac_idx_shift i a2 := by omega
  have ha := xor_shift_inj i a1 a2 hf
  subst ha
  refine ⟨rfl, ?_, rfl⟩
  omega

/-- The first `k` steps of the index-arithmetic loop are injective on `a`, `b`,
`mem`. -/
theorem isaac_idx_run_inj (k : Nat) (s1 s2 : idx_state) (l1 : k ≤ s1.mem.length)
    (l2 : k ≤ s2.mem.length) (w1 : s1.Words32) (w2 : s2.Words32)
    (ea : (isaac_idx_run k s1).a = (isaac_idx_run k s2).a)
    (eb : (isaac_idx_run k s1).b = (isaac_idx_run k s2).b)
    (em : (isaac_idx_run k s1).mem = (isaac_idx_run k s2).mem) :
    s1.a = s2.a ∧ s1.b = s2.b ∧ s1.mem = s2.mem := by
  induction k with
  | zero => exact ⟨ea, eb, em⟩
  | succ k ih =>
    simp only [isaac_idx_run] at ea eb em
    obtain ⟨ha, hb, hm⟩ := isaac_idx_step_inj k _ _
      (by rw [(isaac_idx_run_length k s1).1]; omega)
      (by rw [(isaac_idx_run_length k s2).1]; omega)
      (isaac_idx_run_Words32 k s1 w1) (isaac_idx_run_Words32 k s2 w2) ea eb em
    exact ih (by omega) (by omega) ha hb hm

/-- A block generation is injective on `randmem`, `randa`, `randb`, `randc` of
well-formed contexts of 32-bit words. -/
theorem isaac_idx_inj (c1 c2 : randctx) (h1 : c1.WF) (h2 : c2.WF)
    (hm1 : ∀ x ∈ c1.randmem, x < 2 ^ 32) (hm2 : ∀ x ∈ c2.randmem, x < 2 ^ 32)
    (ha1 : c1.randa < 2 ^ 32) (ha2 : c2.randa < 2 ^ 32)
    (hb1 : c1.randb < 2 ^ 32) (hb2 : c2.randb < 2 ^ 32)
    (hc1 : c1.randc < 2 ^ 32) (hc2 : c2.randc < 2 ^ 32)
    (em : (isaac_idx c1).randmem = (isaac_idx c2).randmem)
    (ea : (isaac_idx c1).randa = (isaac_idx c2).randa)
    (eb : (isaac_idx c1).randb = (isaac_idx c2).randb)
    (ec : (isaac_idx c1).randc = (isaac_idx c2).randc) :
    c1.randmem = c2.randmem ∧ c1.randa = c2.randa ∧ c1.randb = c2.randb ∧
      c1.randc = c2.randc := by
  simp only [isaac_idx] at em ea eb ec
  obtain ⟨ha, hb, hm⟩ := isaac_idx_run_inj RANDSIZ
    { a := c1.randa, b := (c1.randb + (c1.randc + 1) % 2 ^ 32) % 2 ^ 32, mem := c1.randmem,
      rsl := c1.randrsl }
    { a := c2.randa, b := (c2.randb + (c2.randc + 1) % 2 ^ 32) % 2 ^ 32, mem := c2.randmem,
      rsl := c2.randrsl }
    (Nat.le_of_eq h1.2.symm) (Nat.le_of_eq h2.2.symm)
    ⟨ha1, Nat.mod_lt _ (by decide), hm1⟩ ⟨ha2, Nat.mod_lt _ (by decide), hm2⟩ ea eb em
  simp only at ha hb hm
  have hc : c1.randc = c2.randc := by omega
  rw [hc] at hb
  exact ⟨hm, ha, by omega, hc⟩

theorem calloc_ctx_Words32 : calloc_ctx.Words32 := by
  simp [randctx.Words32, calloc_ctx]

theorem calloc_ctx_a1_WF : calloc_ctx_a1.WF := by
  simp [randctx.WF, calloc_ctx_a1, calloc_ctx]

theorem calloc_ctx_a1_Words32 : calloc_ctx_a1.Words32 := by
  simp [randctx.Words32, calloc_ctx_a1, calloc_ctx]

/-! ## The seeded table determines the seed -/

theorem mixvars.toList_inj (v w : mixvars) (h : v.toList = w.toList) : v = w := by
  cases v; cases w
  simp only [mixvars.toList, List.cons.injEq, and_true] at h
  obtain ⟨a, b, c, d, e, f, g, h⟩ := h
  subst a b c d e f g h
  rfl

theorem mixvars.toList_lt (v : mixvars) (h : v.Words32) : ∀ x ∈ v.toList, x < 2 ^ 32 := by
  obtain ⟨a, b, c, d, e, f, g, h⟩ := h
  intro x hx
  simp only [mixvars.toList, List.mem_cons, List.mem_singleton, List.not_mem_nil,
    or_false] at hx
  rcases hx with r | r | r | r | r | r | r | r <;> rw [r] <;> assumption

theorem add8_total_Words32 (p : List Nat) (i : Nat) (v : mixvars) :
    (add8_total p i v).Words32 :=
  ⟨ub4_lt _, ub4_lt _, ub4_lt _, ub4_lt _, ub4_lt _, ub4_lt _, ub4_lt _, ub4_lt _⟩

theorem fill_state_seed_Words32 (p : List Nat) (v : mixvars) (j : Nat) :
    (fill_state (seed_add p) (j + 1) v).Words32 :=
  mix_Words32 _ (add8_total_Words32 _ _ _)

theorem fill_table_seed_lt (p : List Nat) (v : mixvars) (n : Nat) :
    ∀ x ∈ fill_table (seed_add p) v n, x < 2 ^ 32 := by
  induction n with
  | zero => intro x hx; simp [fill_table] at hx
  | succ n ih =>
    intro x hx
    simp only [fill_table, List.mem_append] at hx
    rcases hx with hx | hx
    · exact ih x hx
    · exact mixvars.toList_lt _ (fill_state_seed_Words32 p v n) x hx

/-- Equal tables come from equal scratch words after every group. -/
theorem fill_table_states (f g : Nat → mixvars → mixvars) (v w : mixvars) (n : Nat)
    (h : fill_table f v n = fill_table g w n) :
    ∀ j, j < n → fill_state f (j + 1) v = fill_state g (j + 1) w := by
  induction n with
  | zero => intro j hj; omega
  | succ n ih =>
    simp only [fill_table] at h
    obtain ⟨h1, h2⟩ := List.append_inj h
      (by rw [fill_table_length, fill_table_length])
    intro j hj
    by_cases hjn : j < n
    · exact ih h1 j hjn
    · have e : j = n := by omega
      subst e
      exact mixvars.toList_inj _ _ h2

/-- When mixing the scratch words `S` with group `j` of `p` and with group `j`
of `q` gives the same, the two groups are equal. -/
theorem seed_add_group_inj (p q : List Nat) (S : mixvars) (j : Nat)
    (hp : ∀ x ∈ p, x < 2 ^ 32) (hq : ∀ x ∈ q, x < 2 ^ 32)
    (h : mix (seed_add p j S) = mix (seed_add q j S)) :
    ∀ t, t < 8 → p.getD (8 * j + t) 0 = q.getD (8 * j + t) 0 := by
  have e := mix_injective _ _ (add8_total_Words32 p (8 * j) S) (add8_total_Words32 q (8 * j) S) h
  simp only [add8_total, mixvars.mk.injEq, ub4] at e
  obtain ⟨e0, e1, e2, e3, e4, e5, e6, e7⟩ := e
  have b := fun k => getD_lt_of_all_lt p k hp
  have c := fun k => getD_lt_of_all_lt q k hq
  intro t ht
  have b0 := b (8 * j); have c0 := c (8 * j)
  have b1 := b (8 * j + 1); have c1 := c (8 * j + 1)
  have b2 := b (8 * j + 2); have c2 := c (8 * j + 2)
  have b3 := b (8 * j + 3); have c3 := c (8 * j + 3)
  have b4 := b (8 * j + 4); have c4 := c (8 * j + 4)
  have b5 := b (8 * j + 5); have c5 := c (8 * j + 5)
  have b6 := b (8 * j + 6); have c6 := c (8 * j + 6)
  have b7 := b (8 * j + 7); have c7 := c (8 * j + 7)
  have t8 : t = 0 ∨ t = 1 ∨ t = 2 ∨ t = 3 ∨ t = 4 ∨ t = 5 ∨ t = 6 ∨ t = 7 := by omega
  rcases t8 with r | r | r | r | r | r | r | r <;> subst r <;>
    (try simp only [Nat.add_zero]) <;> omega

/-- Two lists of `8n` words whose groups agree are equal. -/
theorem eq_of_groups (p q : List Nat) (n : Nat) (lp : p.length = 8 * n) (lq : q.length = 8 * n)
    (h : ∀ j, j < n → ∀ t, t < 8 → p.getD (8 * j + t) 0 = q.getD (8 * j + t) 0) : p = q := by
  apply List.ext_getElem?
  intro k
  by_cases hk : k < 8 * n
  · have e := h (k / 8) (by omega) (k % 8) (by omega)
    rw [Nat.div_add_mod] at e
    rw [getElem?_eq_some_getD (by omega), getElem?_eq_some_getD (by omega), e]
  · rw [List.getElem?_eq_none (by omega), List.getElem?_eq_none (by omega)]

/-- A filling pass that adds the groups of `p` is injective in `p` once the
scratch words it starts from are fixed. -/
theorem fill_table_seed_inj (p q : List Nat) (v : mixvars) (n : Nat)
    (lp : p.length = 8 * n) (lq : q.length = 8 * n)
    (hp : ∀ x ∈ p, x < 2 ^ 32) (hq : ∀ x ∈ q, x < 2 ^ 32)
    (h : fill_table (seed_add p) v n = fill_table (seed_add q) v n) : p = q := by
  have hs := fill_table_states _ _ _ _ _ h
  have hall : ∀ j, j ≤ n → fill_state (seed_add p) j v = fill_state (seed_add q) j v := by
    intro j hj
    cases j with
    | zero => rfl
    | succ j => exact hs j (by omega)
  refine eq_of_groups p q n lp lq fun j hj => ?_
  have e := hs j hj
  simp only [fill_state] at e
  rw [hall j (by omega)] at e
  exact seed_add_group_inj p q _ j hp hq e

/-- The second pass, which adds the groups of the table `p` left by the first
pass and starts from the scratch words that the first pass stored last, is
injective in `p`. -/
theorem fill_table_pass2_inj (p q : List Nat) (v w : mixvars) (n : Nat) (hn : 2 ≤ n)
    (lp : p.length = 8 * n) (lq : q.length = 8 * n)
    (hp : ∀ x ∈ p, x < 2 ^ 32) (hq : ∀ x ∈ q, x < 2 ^ 32)
    (hv : (p.drop (8 * (n - 1))).take 8 = v.toList)
    (hw : (q.drop (8 * (n - 1))).take 8 = w.toList)
    (h : fill_table (seed_add p) v n = fill_table (seed_add q) w n) : p = q := by
  have hs := fill_table_states _ _ _ _ _ h
  -- groups `1 .. n-1` agree
  have hg : ∀ j, 1 ≤ j → j < n → ∀ t, t < 8 →
      p.getD (8 * j + t) 0 = q.getD (8 * j + t) 0 := by
    intro j hj1 hjn
    have e := hs j hjn
    simp only [fill_state] at e
    obtain ⟨i, rfl⟩ : ∃ i, j = i + 1 := ⟨j - 1, by omega⟩
    rw [hs i (by omega)] at e
    exact seed_add_group_inj p q _ (i + 1) hp hq e
  -- hence the starting scratch words agree
  have hlast : (p.drop (8 * (n - 1))).take 8 = (q.drop (8 * (n - 1))).take 8 := by
    apply List.ext_getElem?
    intro k
    by_cases hk : k < 8
    · have e := hg (n - 1) (by omega) (by omega) k hk
      rw [List.getElem?_take_of_lt hk, List.getElem?_take_of_lt hk, List.getElem?_drop,
        List.getElem?_drop, getElem?_eq_some_getD (by omega), getElem?_eq_some_getD (by omega), e]
    · rw [List.getElem?_eq_none (by rw [List.length_take]; omega),
        List.getElem?_eq_none (by rw [List.length_take]; omega)]
  have hvw : v = w := mixvars.toList_inj _ _ (by rw [← hv, ← hw, hlast])
  subst hvw
  exact fill_table_seed_inj p q v n lp lq hp hq h

/-- For a nonzero flag the table that `randinit` fills in determines the seed. -/
theorem randinit_table_inj (p q : List Nat) (flag : Int) (hflag : flag ≠ 0)
    (lp : p.length = RANDSIZ) (lq : q.length = RANDSIZ)
    (hp : ∀ x ∈ p, x < 2 ^ 32) (hq : ∀ x ∈ q, x < 2 ^ 32)
    (h : randinit_table p flag = randinit_table q flag) : p = q := by
  have hR : RANDSIZ / 8 = 32 := by rw [RANDSIZ_eq]
  have hR8 : RANDSIZ = 8 * 32 := by rw [RANDSIZ_eq]
  simp only [randinit_table, hflag, if_true, ne_eq, not_false_eq_true, hR] at h
  have hlast : ∀ s : List Nat, ((fill_table (seed_add s) scrambled 32).drop (8 * (32 - 1))).take 8 =
      (fill_state (seed_add s) 32 scrambled).toList := fun s =>
    fill_table_block (seed_add s) scrambled 32 31 (by omega)
  have e1 := fill_table_pass2_inj _ _ _ _ 32 (by omega)
    (fill_table_length _ _ _) (fill_table_length _ _ _)
    (fill_table_seed_lt p scrambled 32) (fill_table_seed_lt q scrambled 32)
    (hlast p) (hlast q) h
  exact fill_table_seed_inj p q scrambled 32 (lp.trans hR8) (lq.trans hR8) hp hq e1

theorem other_ctx_seed_lt : ∀ x ∈ other_ctx.randrsl, x < 2 ^ 32 := by
  intro x hx
  simp only [other_ctx, List.mem_range, RANDSIZ_eq] at hx
  omega

theorem calloc_other_seed_ne : calloc_ctx.randrsl ≠ other_ctx.randrsl := by
  intro h
  have hR : 1 < RANDSIZ := by rw [RANDSIZ_eq]; decide
  have e := congrArg (fun l : List Nat => l[1]?) h
  simp only [calloc_ctx, other_ctx] at e
  rw [List.getElem?_replicate, if_pos hR, List.getElem?_range hR] at e
  exact absurd e (by decide)

/-! ## The claims -/

/-- C1. Output order: from a well-formed state `s` with `randcnt = RANDSIZ`, for
every `k` with `1 ≤ k ≤ RANDSIZ` the `k`-th consecutive `isaac_rand` returns
`randrsl[RANDSIZ - k]` of `s`: a block is handed out from index `RANDSIZ - 1`
down to index `0`.  In particular this holds of the context `r` that `randinit`
returns on a well-formed context. -/
theorem isaac_rand_output_order (s : randctx) (k : Nat) (hwf : s.WF)
    (hcnt : s.randcnt = RANDSIZ) (hk1 : 1 ≤ k) (hk : k ≤ RANDSIZ)
    (ctx : randctx) (flag : Int) (hctx : ctx.WF) :
    (∃ v, s.randrsl[RANDSIZ - k]? = some v ∧ isaac_rand_nth k s = some v) ∧
    (∃ r v, randinit ctx flag = some r ∧ r.randcnt = RANDSIZ ∧
      r.randrsl[RANDSIZ - k]? = some v ∧ isaac_rand_nth k r = some v) := by
  obtain ⟨v, h1, h2⟩ := isaac_rand_nth_full_block _ k (randinit_WF ctx flag hctx) rfl hk1 hk
  exact ⟨isaac_rand_nth_full_block s k hwf hcnt hk1 hk,
    _, v, randinit_eq ctx flag hctx, rfl, h1, h2⟩

/-- C1 at a full block holding `0, 1, ..., RANDSIZ-1`, third call, and at the
all-zero context of `main`, unseeded. -/
theorem isaac_rand_output_order_witness :
    full_ctx.WF ∧ full_ctx.randcnt = RANDSIZ ∧ 1 ≤ 3 ∧ 3 ≤ RANDSIZ ∧ calloc_ctx.WF ∧
      ((∃ v, full_ctx.randrsl[RANDSIZ - 3]? = some v ∧ isaac_rand_nth 3 full_ctx = some v) ∧
      (∃ r v, randinit calloc_ctx 0 = some r ∧ r.randcnt = RANDSIZ ∧
        r.randrsl[RANDSIZ - 3]? = some v ∧ isaac_rand_nth 3 r = some v)) :=
  ⟨full_ctx_WF, rfl, by decide, by decide, calloc_ctx_WF,
    isaac_rand_output_order full_ctx 3 full_ctx_WF rfl (by decide) (by decide)
      calloc_ctx 0 calloc_ctx_WF⟩

/-- C2. Refill on exhaustion: on a well-formed state with `randcnt = 0`,
`isaac_rand` runs `isaac` once: with `t` the context that `isaac` returns on the
state, the resulting context is `t` with `randcnt = RANDSIZ - 1` (so `randmem`,
`randrsl`, `randa`, `randb`, `randc` are those of `t`) and the returned value
is the new `randrsl[RANDSIZ - 1]`. -/
theorem isaac_rand_refill (s : randctx) (hwf : s.WF) (h0 : s.randcnt = 0) :
    ∃ t v, isaac s = some t ∧ t.randrsl[RANDSIZ - 1]? = some v ∧
      isaac_rand s = some (v, { t with randcnt := RANDSIZ - 1 }) := by
  have hz := isaac_rand_zero s hwf h0
  have hw := (isaac_idx_WF s hwf).1
  have hi := isaac_eq_idx s hwf
  generalize isaac_idx s = t at hz hw hi
  exact ⟨t, _, hi, getElem?_eq_some_getD (by rw [hw, RANDSIZ_eq]; omega), hz⟩

/-- C2 at the all-zero context of `main`. -/
theorem isaac_rand_refill_witness :
    calloc_ctx.WF ∧ calloc_ctx.randcnt = 0 ∧
      ∃ t v, isaac calloc_ctx = some t ∧ t.randrsl[RANDSIZ - 1]? = some v ∧
        isaac_rand calloc_ctx = some (v, { t with randcnt := RANDSIZ - 1 }) :=
  ⟨calloc_ctx_WF, rfl, isaac_rand_refill calloc_ctx calloc_ctx_WF rfl⟩

/-- C3. A non-exhausted read is a pure buffer read: on a well-formed state with
`0 < randcnt ≤ RANDSIZ`, `isaac_rand` returns `randrsl[randcnt - 1]` and the
resulting context is the same context with `randcnt` decremented; `randmem`,
`randrsl`, `randa`, `randb` and `randc` are unchanged. -/
theorem isaac_rand_buffer_read (s : randctx) (hwf : s.WF) (h0 : 0 < s.randcnt)
    (hN : s.randcnt ≤ RANDSIZ) :
    ∃ v, s.randrsl[s.randcnt - 1]? = some v ∧
      isaac_rand s = some (v, { s with randcnt := s.randcnt - 1 }) :=
  ⟨_, getElem?_eq_some_getD (by rw [hwf.1]; omega), isaac_rand_pos s hwf h0 hN⟩

/-- C3 at a full block holding `0, 1, ..., RANDSIZ-1`. -/
theorem isaac_rand_buffer_read_witness :
    full_ctx.WF ∧ 0 < full_ctx.randcnt ∧ full_ctx.randcnt ≤ RANDSIZ ∧
      ∃ v, full_ctx.randrsl[full_ctx.randcnt - 1]? = some v ∧
        isaac_rand full_ctx = some (v, { full_ctx with randcnt := full_ctx.randcnt - 1 }) :=
  ⟨full_ctx_WF, by decide, Nat.le_refl _,
    isaac_rand_buffer_read full_ctx full_ctx_WF (by decide) (Nat.le_refl _)⟩

/-- C4. Block boundary: `randinit` on a well-formed context, with any flag,
returns a context `r` such that `RANDSIZ` consecutive `isaac_rand`s lead to `r`
with `randcnt = 0` and everything else as `randinit` left it, and one further
`isaac_rand` leads to `t` with `randcnt = RANDSIZ - 1`, where `t` is what one
`isaac` returns on `r`; its `randc` is `2`. -/
theorem isaac_rand_block_boundary (ctx : randctx) (flag : Int) (hwf : ctx.WF) :
    ∃ r t, randinit ctx flag = some r ∧
      isaac_rand_iter RANDSIZ r = some { r with randcnt := 0 } ∧
      isaac r = some t ∧
      isaac_rand_iter (RANDSIZ + 1) r = some { t with randcnt := RANDSIZ - 1 } ∧
      t.randc = 2 := by
  have hr := randinit_eq ctx flag hwf
  have hrwf := randinit_WF ctx flag hwf
  have hc1 : (isaac_idx (randinit_seeded ctx flag)).randc = 1 := by
    rw [isaac_idx_randc]; rfl
  generalize isaac_idx (randinit_seeded ctx flag) = u at hr hrwf hc1
  have hit := isaac_rand_iter_le { u with randcnt := RANDSIZ } hrwf (Nat.le_refl _) RANDSIZ
    (Nat.le_refl _)
  have hit0 : isaac_rand_iter RANDSIZ { u with randcnt := RANDSIZ } =
      some { u with randcnt := 0 } := by
    rw [hit]; simp only [Nat.sub_self]
  have hz := isaac_rand_zero { u with randcnt := 0 } (randctx.WF_set_randcnt u 0 hrwf) rfl
  have hi := isaac_eq_idx { u with randcnt := RANDSIZ } hrwf
  have hc2 : (isaac_idx { u with randcnt := RANDSIZ }).randc = 2 := by
    rw [isaac_idx_randc]; dsimp only; rw [hc1]; rfl
  rw [isaac_idx_set_randcnt] at hz hi hc2
  generalize isaac_idx u = w at hz hi hc2
  refine ⟨{ u with randcnt := RANDSIZ }, { w with randcnt := RANDSIZ }, hr, hit0, hi, ?_, hc2⟩
  rw [isaac_rand_iter_succ, hit0, Option.some_bind, hz, Option.map_some']

/-- C4 at the all-zero context of `main`, unseeded. -/
theorem isaac_rand_block_boundary_witness :
    calloc_ctx.WF ∧
      ∃ r t, randinit calloc_ctx 0 = some r ∧
        isaac_rand_iter RANDSIZ r = some { r with randcnt := 0 } ∧
        isaac r = some t ∧
        isaac_rand_iter (RANDSIZ + 1) r = some { t with randcnt := RANDSIZ - 1 } ∧
        t.randc = 2 :=
  ⟨calloc_ctx_WF, isaac_rand_block_boundary calloc_ctx 0 calloc_ctx_WF⟩

/-- C5. Post-initialisation state: on a well-formed context, with any flag,
`randinit` returns; the table-filling part leaves a context `seeded` with
`randa = randb = randc = 0`, `isaac` runs once on it, and the returned context
is its result with `randcnt = RANDSIZ`; its `randc` is `1`. -/
theorem randinit_post_state (ctx : randctx) (flag : Int) (hwf : ctx.WF) :
    ∃ seeded t r, randinit_fill ctx flag = some seeded ∧
      seeded.randa = 0 ∧ seeded.randb = 0 ∧ seeded.randc = 0 ∧
      isaac seeded = some t ∧ randinit ctx flag = some r ∧
      r = { t with randcnt := RANDSIZ } ∧ r.randcnt = RANDSIZ ∧ r.randc = 1 := by
  have hf := randinit_fill_eq ctx flag hwf
  have hi := isaac_eq_idx _ (randinit_seeded_WF ctx flag hwf)
  have hr := randinit_eq ctx flag hwf
  have hc1 : (isaac_idx (randinit_seeded ctx flag)).randc = 1 := by
    rw [isaac_idx_randc]; rfl
  generalize isaac_idx (randinit_seeded ctx flag) = u at hr hi hc1
  exact ⟨randinit_seeded ctx flag, u, { u with randcnt := RANDSIZ }, hf, rfl, rfl, rfl, hi, hr,
    rfl, rfl, hc1⟩

/-- C5 at a context with arbitrary contents, seeded. -/
theorem randinit_post_state_witness :
    other_ctx.WF ∧
      ∃ seeded t r, randinit_fill other_ctx 1 = some seeded ∧
        seeded.randa = 0 ∧ seeded.randb = 0 ∧ seeded.randc = 0 ∧
        isaac seeded = some t ∧ randinit other_ctx 1 = some r ∧
        r = { t with randcnt := RANDSIZ } ∧ r.randcnt = RANDSIZ ∧ r.randc = 1 :=
  ⟨other_ctx_WF, randinit_post_state other_ctx 1 other_ctx_WF⟩

/-- C6. Unseeded initialisation ignores its input: for any two well-formed
contexts `randinit(c1, 0)` and `randinit(c2, 0)` return the same context, and
the `n`-th value generated after either is the same, for every `n ≥ 1`. -/
theorem randinit_noseed_ignores_input (c1 c2 : randctx) (h1 : c1.WF) (h2 : c2.WF) :
    (∃ r, randinit c1 0 = some r ∧ randinit c2 0 = some r) ∧
      ∀ n, 1 ≤ n → ∃ v, generated c1 0 n = some v ∧ generated c2 0 n = some v := by
  have he : randinit c1 0 = randinit c2 0 :=
    randinit_congr c1 c2 0 h1 h2 (by simp [randinit_table])
  refine ⟨⟨_, randinit_eq c1 0 h1, he ▸ randinit_eq c1 0 h1⟩, fun n _ => ?_⟩
  obtain ⟨v, hv⟩ := generated_total c1 0 h1 n
  refine ⟨v, hv, ?_⟩
  rw [generated, ← he]
  exact hv

/-- C6 at two contexts that differ in every field. -/
theorem randinit_noseed_ignores_input_witness :
    calloc_ctx.WF ∧ other_ctx.WF ∧
      ((∃ r, randinit calloc_ctx 0 = some r ∧ randinit other_ctx 0 = some r) ∧
        ∀ n, 1 ≤ n → ∃ v, generated calloc_ctx 0 n = some v ∧ generated other_ctx 0 n = some v) :=
  ⟨calloc_ctx_WF, other_ctx_WF,
    randinit_noseed_ignores_input calloc_ctx other_ctx calloc_ctx_WF other_ctx_WF⟩

/-- C7. Seeded determinism: for every flag, in particular a nonzero one, two
well-formed contexts with the same `randrsl` (the seed), whatever their
`randmem`, `randa`, `randb`, `randc` and `randcnt`, are initialised to the same
context, and the `n`-th value generated after either is the same, for every
`n ≥ 1`. -/
theorem randinit_seeded_determinism (c1 c2 : randctx) (flag : Int)
    (h1 : c1.WF) (h2 : c2.WF) (hseed : c1.randrsl = c2.randrsl) :
    (∃ r, randinit c1 flag = some r ∧ randinit c2 flag = some r) ∧
      ∀ n, 1 ≤ n → ∃ v, generated c1 flag n = some v ∧ generated c2 flag n = some v := by
  have he : randinit c1 flag = randinit c2 flag :=
    randinit_congr c1 c2 flag h1 h2 (by rw [hseed])
  refine ⟨⟨_, randinit_eq c1 flag h1, he ▸ randinit_eq c1 flag h1⟩, fun n _ => ?_⟩
  obtain ⟨v, hv⟩ := generated_total c1 flag h1 n
  refine ⟨v, hv, ?_⟩
  rw [generated, ← he]
  exact hv

/-- C7 at two contexts that share the seed and differ in every other field. -/
theorem randinit_seeded_determinism_witness :
    other_ctx.WF ∧ other_ctx2.WF ∧ other_ctx.randrsl = other_ctx2.randrsl ∧
      ((∃ r, randinit other_ctx 1 = some r ∧ randinit other_ctx2 1 = some r) ∧
        ∀ n, 1 ≤ n → ∃ v, generated other_ctx 1 n = some v ∧ generated other_ctx2 1 n = some v) :=
  ⟨other_ctx_WF, other_ctx2_WF, rfl,
    randinit_seeded_determinism other_ctx other_ctx2 1 other_ctx_WF other_ctx2_WF rfl⟩

/-- C8, counterexample. On the all-zero context `isaac` returns a context whose
`randcnt` is `0`, not `RANDSIZ`. -/
theorem isaac_cursor_not_reset :
    ∃ t, isaac calloc_ctx = some t ∧ t.randcnt = 0 ∧ t.randcnt ≠ RANDSIZ := by
  have hi := isaac_eq_idx calloc_ctx calloc_ctx_WF
  have hc : (isaac_idx calloc_ctx).randcnt = 0 := isaac_idx_randcnt calloc_ctx
  generalize isaac_idx calloc_ctx = t at hi hc
  exact ⟨t, hi, hc, by rw [hc, RANDSIZ_eq]; decide⟩

/-- C8, amended. `isaac` does not write the cursor: on a well-formed context it
returns a context with the `randcnt` it was given.  The callers store the
cursor after `isaac` has returned: `randinit` stores `RANDSIZ`, and `isaac_rand`
on `randcnt = 0` stores `RANDSIZ - 1`. -/
theorem isaac_keeps_cursor (s : randctx) (flag : Int) (hwf : s.WF) :
    (∃ t, isaac s = some t ∧ t.randcnt = s.randcnt) ∧
    (∃ r, randinit s flag = some r ∧ r.randcnt = RANDSIZ) ∧
    (s.randcnt = 0 → ∃ v r, isaac_rand s = some (v, r) ∧ r.randcnt = RANDSIZ - 1) := by
  refine ⟨⟨_, isaac_eq_idx s hwf, isaac_idx_randcnt s⟩,
    ⟨_, randinit_eq s flag hwf, rfl⟩, fun h0 => ⟨_, _, isaac_rand_zero s hwf h0, rfl⟩⟩

/-- C8, amended, at the all-zero context of `main`. -/
theorem isaac_keeps_cursor_witness :
    calloc_ctx.WF ∧
      ((∃ t, isaac calloc_ctx = some t ∧ t.randcnt = calloc_ctx.randcnt) ∧
      (∃ r, randinit calloc_ctx 0 = some r ∧ r.randcnt = RANDSIZ) ∧
      (calloc_ctx.randcnt = 0 →
        ∃ v r, isaac_rand calloc_ctx = some (v, r) ∧ r.randcnt = RANDSIZ - 1)) :=
  ⟨calloc_ctx_WF, isaac_keeps_cursor calloc_ctx 0 calloc_ctx_WF⟩

/-- C9. Cursor invariant and absence of errors.  `randinit` on a well-formed
context returns a well-formed context `r` with `randcnt ≤ RANDSIZ`, and every
number `n` of consecutive `isaac_rand`s from `r` returns a well-formed context
with `randcnt ≤ RANDSIZ`, even `randcnt ≤ RANDSIZ - 1` when `n ≥ 1`.  On every
well-formed context `s` with `randcnt ≤ RANDSIZ`, `isaac_rand` returns a value
and a well-formed context with `randcnt ≤ RANDSIZ - 1`, and the value is the
entry of `randrsl` at the new `randcnt`, an index below `RANDSIZ`. -/
theorem isaac_rand_cursor_invariant (ctx : randctx) (flag : Int) (hwf : ctx.WF)
    (s : randctx) (hs : s.WF) (hN : s.randcnt ≤ RANDSIZ) :
    (∃ r, randinit ctx flag = some r ∧ r.WF ∧ r.randcnt ≤ RANDSIZ ∧
      ∀ n, ∃ t, isaac_rand_iter n r = some t ∧ t.WF ∧ t.randcnt ≤ RANDSIZ ∧
        (1 ≤ n → t.randcnt ≤ RANDSIZ - 1)) ∧
    (∃ v t, isaac_rand s = some (v, t) ∧ t.WF ∧ t.randcnt ≤ RANDSIZ - 1 ∧
      t.randcnt < RANDSIZ ∧ t.randrsl[t.randcnt]? = some v) := by
  refine ⟨⟨_, randinit_eq ctx flag hwf, randinit_WF ctx flag hwf, Nat.le_refl _, fun n =>
    isaac_rand_iter_total _ (randinit_WF ctx flag hwf) (Nat.le_refl _) n⟩, ?_⟩
  obtain ⟨v, t, h1, h2, h3, h4⟩ := isaac_rand_total s hs hN
  exact ⟨v, t, h1, h2, h3, by rw [RANDSIZ_eq] at h3 ⊢; omega, h4⟩

/-- C9 at the all-zero context of `main` and at a full block. -/
theorem isaac_rand_cursor_invariant_witness :
    calloc_ctx.WF ∧ full_ctx.WF ∧ full_ctx.randcnt ≤ RANDSIZ ∧
    ((∃ r, randinit calloc_ctx 0 = some r ∧ r.WF ∧ r.randcnt ≤ RANDSIZ ∧
      ∀ n, ∃ t, isaac_rand_iter n r = some t ∧ t.WF ∧ t.randcnt ≤ RANDSIZ ∧
        (1 ≤ n → t.randcnt ≤ RANDSIZ - 1)) ∧
    (∃ v t, isaac_rand full_ctx = some (v, t) ∧ t.WF ∧ t.randcnt ≤ RANDSIZ - 1 ∧
      t.randcnt < RANDSIZ ∧ t.randrsl[t.randcnt]? = some v)) :=
  ⟨calloc_ctx_WF, full_ctx_WF, Nat.le_refl _,
    isaac_rand_cursor_invariant calloc_ctx 0 calloc_ctx_WF full_ctx full_ctx_WF (Nat.le_refl _)⟩

/-- C10. The pointer-walking `isaac` equals its index-arithmetic form: on a
well-formed context it returns a context with the `randmem`, `randrsl`, `randa`,
`randb` and `randc` that `isaac_idx` computes. -/
theorem isaac_refines_isaac_idx (s : randctx) (hwf : s.WF) :
    ∃ t, isaac s = some t ∧ t.randmem = (isaac_idx s).randmem ∧
      t.randrsl = (isaac_idx s).randrsl ∧ t.randa = (isaac_idx s).randa ∧
      t.randb = (isaac_idx s).randb ∧ t.randc = (isaac_idx s).randc :=
  ⟨isaac_idx s, isaac_eq_idx s hwf, rfl, rfl, rfl, rfl, rfl⟩

/-- C10 at a context with arbitrary contents. -/
theorem isaac_refines_isaac_idx_witness :
    other_ctx.WF ∧
      ∃ t, isaac other_ctx = some t ∧ t.randmem = (isaac_idx other_ctx).randmem ∧
        t.randrsl = (isaac_idx other_ctx).randrsl ∧ t.randa = (isaac_idx other_ctx).randa ∧
        t.randb = (isaac_idx other_ctx).randb ∧ t.randc = (isaac_idx other_ctx).randc :=
  ⟨other_ctx_WF, isaac_refines_isaac_idx other_ctx other_ctx_WF⟩

/-- C11. Seeded table construction: for a nonzero flag, on a well-formed
context, `randinit` runs `isaac` on the context `seeded` whose `randmem` is the
seeded table of the description (four rounds of `mix` on eight copies of
`0x9e3779b9`, a first pass adding the seed groups, a second pass adding the
table groups, each group mixed and then stored), whose `randrsl` is still the
seed and whose `randa`, `randb`, `randc` are `0`. -/
theorem randinit_seeded_table (ctx : randctx) (flag : Int) (hflag : flag ≠ 0) (hwf : ctx.WF) :
    ∃ seeded t, randinit_fill ctx flag = some seeded ∧
      seeded.randmem = seeded_table_ref ctx.randrsl ctx.randmem ∧
      seeded.randrsl = ctx.randrsl ∧
      seeded.randa = 0 ∧ seeded.randb = 0 ∧ seeded.randc = 0 ∧
      isaac seeded = some t ∧ randinit ctx flag = some { t with randcnt := RANDSIZ } := by
  have hf := randinit_fill_eq ctx flag hwf
  have hi := isaac_eq_idx _ (randinit_seeded_WF ctx flag hwf)
  have hr := randinit_eq ctx flag hwf
  generalize isaac_idx (randinit_seeded ctx flag) = u at hr hi
  exact ⟨randinit_seeded ctx flag, u, hf,
    randinit_table_seeded ctx.randrsl ctx.randmem flag hflag hwf.2, rfl, rfl, rfl, rfl, hi, hr⟩

/-- C11 at a context whose seed is `0, 1, ..., RANDSIZ-1`. -/
theorem randinit_seeded_table_witness :
    (1 : Int) ≠ 0 ∧ other_ctx.WF ∧
    ∃ seeded t, randinit_fill other_ctx 1 = some seeded ∧
      seeded.randmem = seeded_table_ref other_ctx.randrsl other_ctx.randmem ∧
      seeded.randrsl = other_ctx.randrsl ∧
      seeded.randa = 0 ∧ seeded.randb = 0 ∧ seeded.randc = 0 ∧
      isaac seeded = some t ∧ randinit other_ctx 1 = some { t with randcnt := RANDSIZ } :=
  ⟨by decide, other_ctx_WF, randinit_seeded_table other_ctx 1 (by decide) other_ctx_WF⟩

/-- C12. Unseeded table construction: for flag `0`, on a well-formed context,
`randinit` runs `isaac` on the context `seeded` in which, for every
`j < RANDSIZ/8`, the words `8j .. 8j+7` of `randmem` are the `(5+j)`-th iterate
of `mix` on eight copies of `0x9e3779b9`, and `randa`, `randb`, `randc` are
`0`. -/
theorem randinit_noseed_table (ctx : randctx) (hwf : ctx.WF) :
    ∃ seeded t, randinit_fill ctx 0 = some seeded ∧
      (∀ j, j < RANDSIZ / 8 →
        (seeded.randmem.drop (8 * j)).take 8 = (mix^[5 + j] golden).toList) ∧
      seeded.randa = 0 ∧ seeded.randb = 0 ∧ seeded.randc = 0 ∧
      isaac seeded = some t ∧ randinit ctx 0 = some { t with randcnt := RANDSIZ } := by
  have hf := randinit_fill_eq ctx 0 hwf
  have hi := isaac_eq_idx _ (randinit_seeded_WF ctx 0 hwf)
  have hr := randinit_eq ctx 0 hwf
  generalize isaac_idx (randinit_seeded ctx 0) = u at hr hi
  refine ⟨randinit_seeded ctx 0, u, hf, fun j hj => ?_, rfl, rfl, rfl, hi, hr⟩
  have ht : (randinit_seeded ctx 0).randmem =
      fill_table noseed_add scrambled (RANDSIZ / 8) := by
    simp [randinit_seeded, randinit_table]
  rw [ht, fill_table_block _ _ _ _ hj, fill_state_noseed, scrambled_eq,
    ← Function.iterate_add_apply, Nat.add_comm 5 j]

/-- C12 at the all-zero context of `main`. -/
theorem randinit_noseed_table_witness :
    calloc_ctx.WF ∧
    ∃ seeded t, randinit_fill calloc_ctx 0 = some seeded ∧
      (∀ j, j < RANDSIZ / 8 →
        (seeded.randmem.drop (8 * j)).take 8 = (mix^[5 + j] golden).toList) ∧
      seeded.randa = 0 ∧ seeded.randb = 0 ∧ seeded.randc = 0 ∧
      isaac seeded = some t ∧ randinit calloc_ctx 0 = some { t with randcnt := RANDSIZ } :=
  ⟨calloc_ctx_WF, randinit_noseed_table calloc_ctx calloc_ctx_WF⟩

/-- C13. Counter and cursor closed form: after `randinit` on a well-formed
context followed by `n ≥ 1` evaluations of `isaac_rand`,
`randcnt = RANDSIZ - 1 - ((n-1) mod RANDSIZ)` and
`randc = (1 + (n-1)/RANDSIZ) mod 2^32`; `isaac` was called by exactly
`(n-1)/RANDSIZ` of these evaluations, and every call of `isaac` increments
`randc` by one modulo `2^32`. -/
theorem isaac_rand_counter_cursor (ctx : randctx) (flag : Int) (hwf : ctx.WF) (n : Nat)
    (hn : 1 ≤ n) :
    (∃ r t, randinit ctx flag = some r ∧ isaac_rand_iter n r = some t ∧
      t.randcnt = RANDSIZ - 1 - (n - 1) % RANDSIZ ∧
      t.randc = (1 + (n - 1) / RANDSIZ) % 2 ^ 32 ∧
      isaac_rand_refills n r = some ((n - 1) / RANDSIZ)) ∧
    (∃ u, isaac ctx = some u ∧ u.randc = (ctx.randc + 1) % 2 ^ 32) := by
  obtain ⟨r, hr, hrwf, hcnt, hc⟩ := randinit_full_block ctx flag hwf
  obtain ⟨t, ht, _, h1, h2, h3⟩ := isaac_rand_iter_closed_form r hrwf hcnt
    (by rw [hc]; decide) n hn
  rw [hc] at h2
  exact ⟨⟨r, t, hr, ht, h1, h2, h3⟩, _, isaac_eq_idx ctx hwf, isaac_idx_randc ctx⟩

/-- C13 at the all-zero context of `main`, unseeded, after `1000` values. -/
theorem isaac_rand_counter_cursor_witness :
    calloc_ctx.WF ∧ 1 ≤ 1000 ∧
    ((∃ r t, randinit calloc_ctx 0 = some r ∧ isaac_rand_iter 1000 r = some t ∧
      t.randcnt = RANDSIZ - 1 - (1000 - 1) % RANDSIZ ∧
      t.randc = (1 + (1000 - 1) / RANDSIZ) % 2 ^ 32 ∧
      isaac_rand_refills 1000 r = some ((1000 - 1) / RANDSIZ)) ∧
    (∃ u, isaac calloc_ctx = some u ∧ u.randc = (calloc_ctx.randc + 1) % 2 ^ 32)) :=
  ⟨calloc_ctx_WF, by decide, isaac_rand_counter_cursor calloc_ctx 0 calloc_ctx_WF 1000 (by decide)⟩

/-- C14. State isolation: after `randinit` on a well-formed context, for all
`j ≠ k` less than `RANDSIZ * 2^32` apart, the contexts reached by `j` and by
`k` evaluations of `isaac_rand` differ in `randcnt` or in `randc`, hence are
different; in particular every single evaluation changes the context. -/
theorem isaac_rand_state_isolation (ctx : randctx) (flag : Int) (hwf : ctx.WF) (j k : Nat)
    (hjk : j ≠ k) (h1 : j < k + RANDSIZ * 2 ^ 32) (h2 : k < j + RANDSIZ * 2 ^ 32) :
    ∃ r, randinit ctx flag = some r ∧
      (∃ tj tk, isaac_rand_iter j r = some tj ∧ isaac_rand_iter k r = some tk ∧
        (tj.randcnt ≠ tk.randcnt ∨ tj.randc ≠ tk.randc) ∧ tj ≠ tk) ∧
      (∀ n, ∃ t u, isaac_rand_iter n r = some t ∧ isaac_rand_iter (n + 1) r = some u ∧
        t ≠ u) := by
  obtain ⟨r, hr, hrwf, hcnt, hc⟩ := randinit_full_block ctx flag hwf
  rw [RANDSIZ_eq] at h1 h2
  have key : ∀ a b, a ≠ b → a < b + 256 * 4294967296 → b < a + 256 * 4294967296 →
      ∃ ta tb, isaac_rand_iter a r = some ta ∧ isaac_rand_iter b r = some tb ∧
        (ta.randcnt ≠ tb.randcnt ∨ ta.randc ≠ tb.randc) ∧ ta ≠ tb := by
    intro a b hab ha hb
    obtain ⟨ta, hta, ca, cca⟩ := isaac_rand_iter_cursor_counter r hrwf hcnt hc a
    obtain ⟨tb, htb, cb, ccb⟩ := isaac_rand_iter_cursor_counter r hrwf hcnt hc b
    have hd := cursor_counter_differ a b hab ha hb
    rw [← ca, ← cb, ← cca, ← ccb] at hd
    refine ⟨ta, tb, hta, htb, hd, fun e => ?_⟩
    rw [e] at hd
    exact hd.elim (fun h => h rfl) (fun h => h rfl)
  refine ⟨r, hr, key j k hjk h1 h2, fun n => ?_⟩
  obtain ⟨t, u, ht, hu, _, hne⟩ := key n (n + 1) (by omega) (by omega) (by omega)
  exact ⟨t, u, ht, hu, hne⟩

/-- C14 at the all-zero context of `main`, unseeded, after `3` and after `259`
values. -/
theorem isaac_rand_state_isolation_witness :
    calloc_ctx.WF ∧ 3 ≠ 259 ∧ 3 < 259 + RANDSIZ * 2 ^ 32 ∧ 259 < 3 + RANDSIZ * 2 ^ 32 ∧
    ∃ r, randinit calloc_ctx 0 = some r ∧
      (∃ tj tk, isaac_rand_iter 3 r = some tj ∧ isaac_rand_iter 259 r = some tk ∧
        (tj.randcnt ≠ tk.randcnt ∨ tj.randc ≠ tk.randc) ∧ tj ≠ tk) ∧
      (∀ n, ∃ t u, isaac_rand_iter n r = some t ∧ isaac_rand_iter (n + 1) r = some u ∧
        t ≠ u) :=
  ⟨calloc_ctx_WF, by decide, by rw [RANDSIZ_eq]; decide, by rw [RANDSIZ_eq]; decide,
    isaac_rand_state_isolation calloc_ctx 0 calloc_ctx_WF 3 259 (by decide)
      (by rw [RANDSIZ_eq]; decide) (by rw [RANDSIZ_eq]; decide)⟩

/-- C15. `isaac` regenerates the whole results array: for two well-formed
contexts that agree on `randmem`, `randa`, `randb` and `randc`, whatever their
`randrsl` and `randcnt`, `isaac` returns contexts that agree on `randmem`,
`randrsl`, `randa`, `randb` and `randc`. -/
theorem isaac_regenerates_results (s1 s2 : randctx) (h1 : s1.WF) (h2 : s2.WF)
    (hmem : s1.randmem = s2.randmem) (ha : s1.randa = s2.randa) (hb : s1.randb = s2.randb)
    (hc : s1.randc = s2.randc) :
    ∃ t1 t2, isaac s1 = some t1 ∧ isaac s2 = some t2 ∧
      t1.randmem = t2.randmem ∧ t1.randrsl = t2.randrsl ∧ t1.randa = t2.randa ∧
      t1.randb = t2.randb ∧ t1.randc = t2.randc :=
  ⟨isaac_idx s1, isaac_idx s2, isaac_eq_idx s1 h1, isaac_eq_idx s2 h2,
    isaac_idx_congr_fields s1 s2 h1 h2 hmem ha hb hc⟩

/-- C15 at a full block and the same context with other results and cursor. -/
theorem isaac_regenerates_results_witness :
    full_ctx.WF ∧ ({ full_ctx with randrsl := List.replicate RANDSIZ 7, randcnt := 0 } : randctx).WF ∧
    ∃ t1 t2, isaac full_ctx = some t1 ∧
      isaac { full_ctx with randrsl := List.replicate RANDSIZ 7, randcnt := 0 } = some t2 ∧
      t1.randmem = t2.randmem ∧ t1.randrsl = t2.randrsl ∧ t1.randa = t2.randa ∧
      t1.randb = t2.randb ∧ t1.randc = t2.randc :=
  ⟨full_ctx_WF, by simp [randctx.WF, full_ctx],
    isaac_regenerates_results full_ctx _ full_ctx_WF (by simp [randctx.WF, full_ctx])
      rfl rfl rfl rfl⟩

/-- C16. Accumulator B is exposed as output: on a well-formed context `isaac`
returns a context with `randb = randrsl[RANDSIZ-1]`; if `randcnt = 0`,
`isaac_rand` returns that word; the context that `randinit` returns has
`randb = randrsl[RANDSIZ-1]`, this is the first word `isaac_rand` returns from
it, and the relation holds after any number of evaluations of `isaac_rand`. -/
theorem isaac_randb_exposed (s : randctx) (hs : s.WF) (ctx : randctx) (flag : Int)
    (hwf : ctx.WF) :
    (∃ t, isaac s = some t ∧ t.randrsl[RANDSIZ - 1]? = some t.randb) ∧
    (s.randcnt = 0 → ∃ t, isaac_rand s = some (t.randb, t)) ∧
    (∃ r, randinit ctx flag = some r ∧ r.randrsl[RANDSIZ - 1]? = some r.randb ∧
      isaac_rand_nth 1 r = some r.randb ∧
      ∀ n, ∃ t, isaac_rand_iter n r = some t ∧ t.randrsl[RANDSIZ - 1]? = some t.randb) := by
  refine ⟨⟨_, isaac_eq_idx s hs, isaac_idx_randb s hs⟩, fun h0 => ?_, ?_⟩
  · have hz := isaac_rand_zero s hs h0
    have hb := isaac_idx_randb s hs
    generalize isaac_idx s = u at hz hb
    have hv : u.randrsl.getD (RANDSIZ - 1) 0 = u.randb := by
      rw [List.getD_eq_getElem?_getD, hb]; rfl
    rw [hv] at hz
    exact ⟨{ u with randcnt := RANDSIZ - 1 }, hz⟩
  · have hr := randinit_eq ctx flag hwf
    have hrwf := randinit_WF ctx flag hwf
    have hb := isaac_idx_randb _ (randinit_seeded_WF ctx flag hwf)
    generalize isaac_idx (randinit_seeded ctx flag) = u at hr hrwf hb
    have hb' : ({ u with randcnt := RANDSIZ } : randctx).randrsl[RANDSIZ - 1]? =
        some ({ u with randcnt := RANDSIZ } : randctx).randb := hb
    refine ⟨{ u with randcnt := RANDSIZ }, hr, hb', ?_, fun n => ?_⟩
    · obtain ⟨v, hv1, hv2⟩ := isaac_rand_nth_full_block { u with randcnt := RANDSIZ } 1 hrwf rfl
        (Nat.le_refl _) (by rw [RANDSIZ_eq]; omega)
      rw [hb'] at hv1
      rw [hv2, ← Option.some.inj hv1]
    · obtain ⟨t, ht, _, _, htb⟩ := isaac_rand_iter_randb _ hrwf (Nat.le_refl _) hb' n
      exact ⟨t, ht, htb⟩

/-- C16 at the all-zero context of `main`. -/
theorem isaac_randb_exposed_witness :
    calloc_ctx.WF ∧
    ((∃ t, isaac calloc_ctx = some t ∧ t.randrsl[RANDSIZ - 1]? = some t.randb) ∧
    (calloc_ctx.randcnt = 0 → ∃ t, isaac_rand calloc_ctx = some (t.randb, t)) ∧
    (∃ r, randinit calloc_ctx 0 = some r ∧ r.randrsl[RANDSIZ - 1]? = some r.randb ∧
      isaac_rand_nth 1 r = some r.randb ∧
      ∀ n, ∃ t, isaac_rand_iter n r = some t ∧ t.randrsl[RANDSIZ - 1]? = some t.randb)) :=
  ⟨calloc_ctx_WF, isaac_randb_exposed calloc_ctx calloc_ctx_WF calloc_ctx 0 calloc_ctx_WF⟩

/-- C17. `isaac` is injective on the internal state: two well-formed contexts
of 32-bit words that differ in `randmem`, `randa`, `randb` or `randc` are taken
by `isaac` to contexts that differ in `randmem`, `randa`, `randb` or `randc`. -/
theorem isaac_injective (s1 s2 : randctx) (h1 : s1.WF) (h2 : s2.WF) (w1 : s1.Words32)
    (w2 : s2.Words32)
    (hne : s1.randmem ≠ s2.randmem ∨ s1.randa ≠ s2.randa ∨ s1.randb ≠ s2.randb ∨
      s1.randc ≠ s2.randc) :
    ∃ t1 t2, isaac s1 = some t1 ∧ isaac s2 = some t2 ∧
      (t1.randmem ≠ t2.randmem ∨ t1.randa ≠ t2.randa ∨ t1.randb ≠ t2.randb ∨
        t1.randc ≠ t2.randc) := by
  refine ⟨isaac_idx s1, isaac_idx s2, isaac_eq_idx s1 h1, isaac_eq_idx s2 h2, ?_⟩
  have inj := isaac_idx_inj s1 s2 h1 h2 w1.2.2.1 w2.2.2.1 w1.2.2.2.1 w2.2.2.2.1
    w1.2.2.2.2.1 w2.2.2.2.2.1 w1.2.2.2.2.2 w2.2.2.2.2.2
  generalize isaac_idx s1 = t1 at inj
  generalize isaac_idx s2 = t2 at inj
  by_contra hcon
  simp only [not_or, not_not] at hcon
  obtain ⟨em, ea, eb, ec⟩ := hcon
  obtain ⟨m, a, b, c⟩ := inj em ea eb ec
  rcases hne with h | h | h | h
  · exact h m
  · exact h a
  · exact h b
  · exact h c

/-- C17 at the all-zero context and the all-zero context with `randa = 1`. -/
theorem isaac_injective_witness :
    calloc_ctx.WF ∧ calloc_ctx_a1.WF ∧ calloc_ctx.Words32 ∧ calloc_ctx_a1.Words32 ∧
    (calloc_ctx.randmem ≠ calloc_ctx_a1.randmem ∨ calloc_ctx.randa ≠ calloc_ctx_a1.randa ∨
      calloc_ctx.randb ≠ calloc_ctx_a1.randb ∨ calloc_ctx.randc ≠ calloc_ctx_a1.randc) ∧
    ∃ t1 t2, isaac calloc_ctx = some t1 ∧ isaac calloc_ctx_a1 = some t2 ∧
      (t1.randmem ≠ t2.randmem ∨ t1.randa ≠ t2.randa ∨ t1.randb ≠ t2.randb ∨
        t1.randc ≠ t2.randc) :=
  ⟨calloc_ctx_WF, calloc_ctx_a1_WF, calloc_ctx_Words32, calloc_ctx_a1_Words32,
    Or.inr (Or.inl (by decide)),
    isaac_injective calloc_ctx calloc_ctx_a1 calloc_ctx_WF calloc_ctx_a1_WF calloc_ctx_Words32
      calloc_ctx_a1_Words32 (Or.inr (Or.inl (by decide)))⟩

/-- C18. Seeding loses no seed information: for a nonzero flag, two well-formed
contexts whose seeds (`randrsl`, of 32-bit words) differ are initialised by
`randinit` to contexts that differ in `randmem`, `randa` or `randb`. -/
theorem randinit_seed_injective (c1 c2 : randctx) (flag : Int) (hflag : flag ≠ 0)
    (h1 : c1.WF) (h2 : c2.WF) (w1 : ∀ x ∈ c1.randrsl, x < 2 ^ 32)
    (w2 : ∀ x ∈ c2.randrsl, x < 2 ^ 32) (hne : c1.randrsl ≠ c2.randrsl) :
    ∃ r1 r2, randinit c1 flag = some r1 ∧ randinit c2 flag = some r2 ∧
      (r1.randmem ≠ r2.randmem ∨ r1.randa ≠ r2.randa ∨ r1.randb ≠ r2.randb) := by
  have lt : ∀ s : List Nat, ∀ x ∈ randinit_table s flag, x < 2 ^ 32 := by
    intro s
    simp only [randinit_table, hflag, if_true, ne_eq, not_false_eq_true]
    exact fill_table_seed_lt _ _ _
  have z : (0 : Nat) < 2 ^ 32 := by decide
  have inj := isaac_idx_inj (randinit_seeded c1 flag) (randinit_seeded c2 flag)
    (randinit_seeded_WF c1 flag h1) (randinit_seeded_WF c2 flag h2)
    (lt c1.randrsl) (lt c2.randrsl) z z z z z z
  have c1' : (isaac_idx (randinit_seeded c1 flag)).randc = 1 := by rw [isaac_idx_randc]; rfl
  have c2' : (isaac_idx (randinit_seeded c2 flag)).randc = 1 := by rw [isaac_idx_randc]; rfl
  have hr1 := randinit_eq c1 flag h1
  have hr2 := randinit_eq c2 flag h2
  generalize isaac_idx (randinit_seeded c1 flag) = t1 at inj c1' hr1
  generalize isaac_idx (randinit_seeded c2 flag) = t2 at inj c2' hr2
  refine ⟨_, _, hr1, hr2, ?_⟩
  by_contra hcon
  simp only [not_or, not_not] at hcon
  obtain ⟨em, ea, eb⟩ := hcon
  obtain ⟨m, _⟩ := inj em ea eb (c1'.trans c2'.symm)
  exact hne (randinit_table_inj _ _ flag hflag h1.1 h2.1 w1 w2 m)

/-- C18 at the seeds `0, 0, ..., 0` and `0, 1, ..., RANDSIZ-1`. -/
theorem randinit_seed_injective_witness :
    (1 : Int) ≠ 0 ∧ calloc_ctx.WF ∧ other_ctx.WF ∧ (∀ x ∈ calloc_ctx.randrsl, x < 2 ^ 32) ∧
    (∀ x ∈ other_ctx.randrsl, x < 2 ^ 32) ∧ calloc_ctx.randrsl ≠ other_ctx.randrsl ∧
    ∃ r1 r2, randinit calloc_ctx 1 = some r1 ∧ randinit other_ctx 1 = some r2 ∧
      (r1.randmem ≠ r2.randmem ∨ r1.randa ≠ r2.randa ∨ r1.randb ≠ r2.randb) :=
  ⟨by decide, calloc_ctx_WF, other_ctx_WF, calloc_ctx_Words32.2.1, other_ctx_seed_lt,
    calloc_other_seed_ne,
    randinit_seed_injective calloc_ctx other_ctx 1 (by decide) calloc_ctx_WF other_ctx_WF
      calloc_ctx_Words32.2.1 other_ctx_seed_lt calloc_other_seed_ne⟩

/-- C19. The scrambling transform `mix` is a bijection on octuples of 32-bit
words: it maps such an octuple to such an octuple, and every octuple `w` of
32-bit words is the image of exactly one octuple of 32-bit words. -/
theorem mix_bijective (w : mixvars) (hw : w.Words32) :
    (mix w).Words32 ∧ ∃! v : mixvars, v.Words32 ∧ mix v = w :=
  ⟨mix_Words32 w hw, mix_inv w, ⟨mix_inv_Words32 w hw, mix_mix_inv w hw⟩,
    fun v hv => by rw [← hv.2, mix_inv_mix v hv.1]⟩

/-- C19 at eight copies of `0x9e3779b9`. -/
theorem mix_bijective_witness :
    golden.Words32 ∧ ((mix golden).Words32 ∧ ∃! v : mixvars, v.Words32 ∧ mix v = golden) :=
  ⟨by simp [mixvars.Words32, golden], mix_bijective golden (by simp [mixvars.Words32, golden])⟩

end Isaac
